import Mathlib

/-!
# Verification of the `index-map` slot container

A shallow embedding of the crate's core (`src/lib.rs`, `src/iter.rs`,
`src/option_index.rs`): a map from container-assigned `usize` keys to values,
backed by a growable array of tri-state cells threaded with an intrusive
singly-linked free list.

Modelling conventions:
* `Vec<OptionIndex<T>>` becomes `List (OptionIndex T)`; indices are `Nat`.
* Capacity is not modelled (the backing allocation is invisible at this
  level); `data.length` is the storage length (`Vec::len`).
* Operations that can hit a fatal runtime error (an out-of-bounds `data[i]`
  access, a failed `unwrap`, the `unreachable!`/`assert_ne!` in
  `shrink_to_fit`) return `Option`, with `none` standing for the aborted
  execution.  Infallible operations are plain functions.
* The `while` loop of `shrink_to_fit` is modelled with explicit fuel; a run
  that exhausts its fuel also returns `none`, so every `some` result of the
  model is a faithful image of a finished Rust execution.
-/

/-- The tri-state cell of `src/option_index.rs`: a live payload, a link to the
next free cell, or the free-list terminator. -/
inductive OptionIndex (T : Type) where
  | Some (t : T)
  | Index (i : Nat)
  | NoIndex
deriving DecidableEq

/-- `OptionIndex::is_inner`. -/
def OptionIndex.isInner {T : Type} : OptionIndex T → Bool
  | .Some _ => true
  | _ => false

/-- `OptionIndex::into_inner`. -/
def OptionIndex.intoInner {T : Type} : OptionIndex T → Option T
  | .Some t => some t
  | _ => none

/-- `OptionIndex::into_index`. -/
def OptionIndex.intoIndex {T : Type} : OptionIndex T → Option Nat
  | .Index i => some i
  | _ => none

/-- The container of `src/lib.rs`: backing storage, free-list head, live
count. -/
structure IndexMap (T : Type) where
  data : List (OptionIndex T)
  head : Option Nat
  len : Nat
deriving DecidableEq

namespace IndexMap

variable {T : Type}

/-- `IndexMap::new` (and `with_capacity`, whose capacity hint is invisible
here): empty storage, no free list, zero length. -/
def new (T : Type) : IndexMap T := ⟨[], none, 0⟩

/-- `IndexMap::is_empty`: `self.len() == 0`. -/
def isEmpty (m : IndexMap T) : Bool := m.len == 0

/-- `IndexMap::contains_key`: bounds check, then the slot tag. -/
def containsKey (m : IndexMap T) (i : Nat) : Bool :=
  match m.data[i]? with
  | some c => c.isInner
  | none => false

/-- `IndexMap::get`: `self.data.get(index)?.as_ref().into_inner()`. -/
def get (m : IndexMap T) (i : Nat) : Option T :=
  match m.data[i]? with
  | some c => c.intoInner
  | none => none

/-- `IndexMap::clear`: `self.len = 0; self.data.clear()`.  Note the source
does not reset `self.head`. -/
def clear (m : IndexMap T) : IndexMap T := ⟨[], m.head, 0⟩

/-- `IndexMap::insert`.  With a free-list head `h` it reads `self.data[h]`
(out of bounds aborts: `none`), pops the link into `head` and overwrites the
cell; otherwise it pushes at the end.  Returns the new key and state. -/
def insert (m : IndexMap T) (v : T) : Option (Nat × IndexMap T) :=
  match m.head with
  | none => some (m.data.length, ⟨m.data ++ [.Some v], none, m.len + 1⟩)
  | some h =>
    match m.data[h]? with
    | none => none
    | some c => some (h, ⟨m.data.set h (.Some v), c.intoIndex, m.len + 1⟩)

/-- `IndexMap::remove`: `None` and no change for an out-of-range or free
index; otherwise extract the payload, overwrite the cell with a link to the
old head (or the terminator), push the cell as new head, decrement `len`. -/
def remove (m : IndexMap T) (i : Nat) : Option T × IndexMap T :=
  match m.data[i]? with
  | some (.Some v) =>
      let newCell : OptionIndex T :=
        match m.head with
        | some h => .Index h
        | none => .NoIndex
      (some v, ⟨m.data.set i newCell, some i, m.len - 1⟩)
  | _ => (none, m)

end IndexMap

/-- Index (counting from `start`) of the last cell holding a value, the
`for (i, v) in self.data.iter().enumerate().rev()` scan of `shrink_to_fit`. -/
def lastInnerAux {T : Type} : List (OptionIndex T) → Nat → Option Nat
  | [], _ => none
  | c :: rest, start =>
    match lastInnerAux rest (start + 1) with
    | some j => some j
    | none => if c.isInner then some start else none

/-- Index of the last occupied cell of the storage, if any. -/
def lastInner? {T : Type} (data : List (OptionIndex T)) : Option Nat :=
  lastInnerAux data 0

/-- The free-list walk of `shrink_to_fit` (`while let OptionIndex::Index(next)
= self.data[head]`).  State: current storage, current walk position `h`, the
container's `head` field, the `should_set_head` flag.  `none` models an
out-of-bounds `data[i]`, the `unreachable!` on a link into a live cell, or an
unfinished loop (fuel). -/
def walkFree {T : Type} (last : Nat) :
    List (OptionIndex T) → Nat → Option Nat → Bool → Nat →
    Option (List (OptionIndex T) × Nat × Option Nat × Bool)
  | _, _, _, _, 0 => none
  | data, h, hd, shd, fuel + 1 =>
    match data[h]? with
    | none => none
    | some (.Some _) => some (data, h, hd, shd)
    | some .NoIndex => some (data, h, hd, shd)
    | some (.Index n) =>
      if last < n then
        match data[n]? with
        | none => none
        | some (.Some _) => none
        | some c =>
          let hs := if shd && decide (h < last) then (some h, false) else (hd, shd)
          walkFree last (data.set h c) n hs.1 hs.2 fuel
      else
        let hs := if shd && decide (h < last) then (some h, false) else (hd, shd)
        walkFree last data n hs.1 hs.2 fuel

/-- `IndexMap::shrink_to_fit`.  Fast paths: no free list, or last cell
occupied (capacity-only shrink: no state change here), or an empty map.
Otherwise find the last occupied index, walk the free list splicing out links
into the discarded tail, repoint `head` if needed, force the final walk cell
to the terminator, truncate. -/
def IndexMap.shrinkToFit {T : Type} (m : IndexMap T) : Option (IndexMap T) :=
  match m.head with
  | none => some m
  | some h0 =>
    match m.data.getLast? with
    | none => none
    | some cLast =>
      if cLast.isInner then some m
      else if m.len == 0 then some ⟨[], none, 0⟩
      else
        match lastInner? m.data with
        | none => none
        | some last =>
          match walkFree last m.data h0 (some h0) (decide (last < h0))
              (m.data.length + 1) with
          | none => none
          | some (data', e, hd', shd') =>
            let hd'' := if shd' then (if e < last then some e else none) else hd'
            some ⟨(data'.set e .NoIndex).take (last + 1), hd'', m.len⟩

/-- `IndexMap::retain`: single forward scan; a live cell failing the predicate
is overwritten with a link to the current head (or the terminator), becomes
the new head, and `len` drops by one.  Arguments: suffix still to scan, its
starting index, current head, current len. -/
def retainAux {T : Type} (p : Nat → T → Bool) :
    List (OptionIndex T) → Nat → Option Nat → Nat →
    List (OptionIndex T) × Option Nat × Nat
  | [], _, hd, len => ([], hd, len)
  | c :: rest, i, hd, len =>
    match c with
    | .Some v =>
      if p i v then
        let r := retainAux p rest (i + 1) hd len
        (.Some v :: r.1, r.2)
      else
        let newCell : OptionIndex T :=
          match hd with
          | some h => .Index h
          | none => .NoIndex
        let r := retainAux p rest (i + 1) (some i) (len - 1)
        (newCell :: r.1, r.2)
    | c => let r := retainAux p rest (i + 1) hd len; (c :: r.1, r.2)

/-- `IndexMap::retain`, assembled. -/
def IndexMap.retain {T : Type} (m : IndexMap T) (p : Nat → T → Bool) :
    IndexMap T :=
  let r := retainAux p m.data 0 m.head m.len
  ⟨r.1, r.2.1, r.2.2⟩

/-- The `(index, &mut value)` pairs `retain` hands to its predicate, in scan
order: one call per live cell, independent of the predicate's answers (an
eviction only rewrites the cell already visited). -/
def retainCallsAux {T : Type} : List (OptionIndex T) → Nat → List (Nat × T)
  | [], _ => []
  | .Some v :: rest, i => (i, v) :: retainCallsAux rest (i + 1)
  | _ :: rest, i => retainCallsAux rest (i + 1)

/-- The predicate-call trace of `retain` on a map. -/
def IndexMap.retainCalls {T : Type} (m : IndexMap T) : List (Nat × T) :=
  retainCallsAux m.data 0

/-- Enumeration with a starting offset, `iter().enumerate()` over a suffix. -/
def enumFromIdx {T : Type} : Nat → List (OptionIndex T) → List (Nat × OptionIndex T)
  | _, [] => []
  | n, c :: rest => (n, c) :: enumFromIdx (n + 1) rest

/-- The state shared by `Iter`, `IterMut`, `IntoIter` and `Drain`
(`src/iter.rs`): the enumerated remaining cells and the cached remaining
count used by `size_hint`/`len`.  `Keys`, `Values`, `ValuesMut` wrap this
state and project the yielded pair, reading the same `len` field. -/
structure IterModel (T : Type) where
  inner : List (Nat × OptionIndex T)
  len : Nat
deriving DecidableEq

/-- The shared `next` loop of all the iterators: skip cells until a live one,
decrement the cached count, yield the pair. -/
def iterNextAux {T : Type} :
    List (Nat × OptionIndex T) → Nat → Option ((Nat × T) × IterModel T)
  | [], _ => none
  | (i, c) :: rest, len =>
    match c with
    | .Some v => some ((i, v), ⟨rest, len - 1⟩)
    | _ => iterNextAux rest len

/-- `Iterator::next` for the iterator family. -/
def IterModel.next {T : Type} (it : IterModel T) :
    Option ((Nat × T) × IterModel T) :=
  iterNextAux it.inner it.len

/-- `size_hint` of every iterator in the family: `(len, Some(len))`. -/
def IterModel.sizeHint {T : Type} (it : IterModel T) : Nat × Nat :=
  (it.len, it.len)

/-- A fresh iterator over a map: `iter`/`iter_mut`/`into_iter` all build
`{ inner: data.enumerate(), len: self.len() }`. -/
def IndexMap.iterOf {T : Type} (m : IndexMap T) : IterModel T :=
  ⟨enumFromIdx 0 m.data, m.len⟩

/-- `IndexMap::drain`: reads `self.len()` into the iterator, zeroes the
container's `len` and drains the storage.  `head` is left untouched by the
source.  Returns the iterator and the post-call container. -/
def IndexMap.drainOf {T : Type} (m : IndexMap T) : IterModel T × IndexMap T :=
  (⟨enumFromIdx 0 m.data, m.len⟩, ⟨[], m.head, 0⟩)

/-- The full list of elements an iterator state will still yield: the live
entries among its remaining cells, in order. -/
def iterYields {T : Type} (l : List (Nat × OptionIndex T)) : List (Nat × T) :=
  l.filterMap fun p =>
    match p.2 with
    | .Some v => some (p.1, v)
    | _ => none

/-- One public mutating operation of the container, for reachability.
`modify` stands for the value mutation available through `get_mut`,
`iter_mut`, `values_mut` or the indexing operator (it can change a live
value, never the shape). -/
inductive Op (T : Type) where
  | ins (v : T)
  | rem (k : Nat)
  | clear
  | drain
  | shrink
  | retain (p : Nat → T → Bool)
  | modify (k : Nat) (v : T)

/-- Effect of one operation on the container; `none` when the operation
aborts at runtime. -/
def Op.step {T : Type} : Op T → IndexMap T → Option (IndexMap T)
  | .ins v, m => (m.insert v).map Prod.snd
  | .rem k, m => some (m.remove k).2
  | .clear, m => some m.clear
  | .drain, m => some (m.drainOf).2
  | .shrink, m => m.shrinkToFit
  | .retain p, m => some (m.retain p)
  | .modify k v, m =>
      some (if m.containsKey k then ⟨m.data.set k (.Some v), m.head, m.len⟩ else m)

/-- Run a list of operations from a state. -/
def runOps {T : Type} : List (Op T) → IndexMap T → Option (IndexMap T)
  | [], m => some m
  | op :: ops, m =>
    match op.step m with
    | some m' => runOps ops m'
    | none => none

/-- A state of the container reachable from `new` (or `with_capacity`, which
is the same state here) by public operations that all ran to completion. -/
def Reachable {T : Type} (m : IndexMap T) : Prop :=
  ∃ ops : List (Op T), runOps ops (IndexMap.new T) = some m

/-- Number of live cells in a storage. -/
def countInner {T : Type} (data : List (OptionIndex T)) : Nat :=
  data.countP (·.isInner)

/-- A bounded free chain: from `h`, following links inside the bound `b`
crosses pairwise-distinct cells of `data` that are free (`Index` or
`NoIndex`), ending at a terminator cell or at a position `≥ b`.  The list
collects the visited in-bounds cells in order. -/
inductive BChain {T : Type} (b : Nat) (data : List (OptionIndex T)) :
    Nat → List Nat → Prop where
  | oob (h : Nat) : b ≤ h → BChain b data h []
  | term (h : Nat) : h < b → data[h]? = some .NoIndex → BChain b data h [h]
  | link (h n : Nat) (l : List Nat) : h < b → data[h]? = some (.Index n) →
      BChain b data n l → h ∉ l → BChain b data h (h :: l)

/-- The well-formedness every completed public operation preserves. -/
def WF {T : Type} (m : IndexMap T) : Prop :=
  m.len = countInner m.data ∧
  ∀ h, m.head = some h → ∃ l, BChain m.data.length m.data h l

/-- The keys whose cells fail the predicate, in ascending order. -/
def falseKeys {T : Type} (m : IndexMap T) (p : Nat → T → Bool) : List Nat :=
  ((iterYields (enumFromIdx 0 m.data)).filter fun q => !(p q.1 q.2)).map Prod.fst

/-- Removing a list of keys through the public `remove`, in order. -/
def removeList {T : Type} (m : IndexMap T) (ks : List Nat) : IndexMap T :=
  ks.foldl (fun m k => (m.remove k).2) m


/-- A closed free chain: like `BChain`, but every link stays in bounds and
the chain ends at a terminator cell.  This is the shape the free list has in
any state built by `insert` and `remove` alone. -/
inductive CChain {T : Type} (data : List (OptionIndex T)) :
    Nat → List Nat → Prop where
  | term (h : Nat) : h < data.length → data[h]? = some .NoIndex →
      CChain data h [h]
  | link (h n : Nat) (l : List Nat) : h < data.length →
      data[h]? = some (.Index n) → CChain data n l → h ∉ l →
      CChain data h (h :: l)

/-- The strong well-formedness preserved by `insert` and `remove`: live count
is `len`, and the free list is a closed in-bounds chain. -/
def SWF {T : Type} (m : IndexMap T) : Prop :=
  m.len = countInner m.data ∧
  ∀ h, m.head = some h → ∃ l, CChain m.data h l

/-- Operation lists built from `insert` and `remove` alone. -/
def insRemOnly {T : Type} (ops : List (Op T)) : Prop :=
  ∀ op ∈ ops, (∃ v, op = Op.ins v) ∨ (∃ k, op = Op.rem k)

/-! ## Basic facts and the concrete bug traces -/

/-- A live key is inside the storage. -/
theorem containsKey_lt_length {T : Type} {m : IndexMap T} {i : Nat}
    (h : m.containsKey i = true) : i < m.data.length := by
  unfold IndexMap.containsKey at h
  cases hc : m.data[i]? with
  | none => rw [hc] at h; exact absurd h (by simp)
  | some c => exact (List.getElem?_eq_some.mp hc).1

/-- A live key reads back its cell as a payload cell. -/
theorem containsKey_cell {T : Type} {m : IndexMap T} {i : Nat}
    (h : m.containsKey i = true) : ∃ v, m.data[i]? = some (.Some v) := by
  unfold IndexMap.containsKey at h
  cases hc : m.data[i]? with
  | none => rw [hc] at h; exact absurd h (by simp)
  | some c =>
    rw [hc] at h
    cases c with
    | Some v => exact ⟨v, rfl⟩
    | Index j => exact absurd h (by simp [OptionIndex.isInner])
    | NoIndex => exact absurd h (by simp [OptionIndex.isInner])

/-- C9.  `remove` on an out-of-range or free index returns `None` and leaves
the container — storage, free-list head and `len` — exactly as it was. -/
theorem claim_C9_remove_absent_is_noop {T : Type} (m : IndexMap T) (i : Nat)
    (h : m.containsKey i = false) : m.remove i = (none, m) := by
  unfold IndexMap.containsKey at h
  unfold IndexMap.remove
  cases hc : m.data[i]? with
  | none => simp
  | some c =>
    rw [hc] at h
    cases c with
    | Some v => exact absurd h (by simp [OptionIndex.isInner])
    | Index j => simp
    | NoIndex => simp

/-- Witness for C9 at a concrete input: key 1 is absent from a one-element
map, and `remove 1` changes nothing. -/
theorem claim_C9_witness :
    (⟨[.Some 7], none, 1⟩ : IndexMap Nat).containsKey 1 = false ∧
      (⟨[.Some 7], none, 1⟩ : IndexMap Nat).remove 1
        = (none, ⟨[.Some 7], none, 1⟩) :=
  ⟨by decide, claim_C9_remove_absent_is_noop ⟨[.Some 7], none, 1⟩ 1 (by decide)⟩

/-- C5.  Free-list LIFO reuse: removing distinct live keys `k1` then `k2` and
inserting twice hands back `k2` first, then `k1`. -/
theorem claim_C5_lifo_reuse {T : Type} (m : IndexMap T) (k1 k2 : Nat) (v w : T)
    (hne : k1 ≠ k2)
    (h1 : m.containsKey k1 = true) (h2 : m.containsKey k2 = true) :
    ∃ (x1 x2 : T) (m1 m2 m3 m4 : IndexMap T),
      m.remove k1 = (some x1, m1) ∧
      m1.remove k2 = (some x2, m2) ∧
      m2.insert v = some (k2, m3) ∧
      m3.insert w = some (k1, m4) := by
  obtain ⟨x1, hc1⟩ := containsKey_cell h1
  obtain ⟨x2, hc2⟩ := containsKey_cell h2
  have hk1 : k1 < m.data.length := containsKey_lt_length h1
  have hk2 : k2 < m.data.length := containsKey_lt_length h2
  -- the cell `remove k1` writes
  set c1 : OptionIndex T :=
    (match m.head with
      | some h => .Index h
      | none => .NoIndex) with hc1def
  refine ⟨x1, x2, ⟨m.data.set k1 c1, some k1, m.len - 1⟩,
    ⟨(m.data.set k1 c1).set k2 (.Index k1), some k2, m.len - 1 - 1⟩,
    ⟨((m.data.set k1 c1).set k2 (.Index k1)).set k2 (.Some v), some k1,
      m.len - 1 - 1 + 1⟩,
    ⟨(((m.data.set k1 c1).set k2 (.Index k1)).set k2 (.Some v)).set k1 (.Some w),
      c1.intoIndex, m.len - 1 - 1 + 1 + 1⟩, ?_, ?_, ?_, ?_⟩
  · unfold IndexMap.remove
    rw [hc1]
  · unfold IndexMap.remove
    simp only [List.getElem?_set_ne hne, hc2]
  · unfold IndexMap.insert
    simp only []
    have : ((m.data.set k1 c1).set k2 (.Index k1))[k2]? = some (.Index k1) := by
      rw [List.getElem?_set_self (by simpa using hk2)]
    rw [this]
    rfl
  · unfold IndexMap.insert
    simp only []
    have : (((m.data.set k1 c1).set k2 (.Index k1)).set k2 (.Some v))[k1]?
        = some c1 := by
      rw [List.getElem?_set_ne (Ne.symm hne), List.getElem?_set_ne (Ne.symm hne),
        List.getElem?_set_self (by simpa using hk1)]
    rw [this]

/-- Witness for C5: a concrete three-element map, removing keys 0 and 2 then
inserting twice reuses 2 first, then 0. -/
theorem claim_C5_witness :
    ∃ (x1 x2 : Nat) (m1 m2 m3 m4 : IndexMap Nat),
      (⟨[.Some 5, .Some 6, .Some 7], none, 3⟩ : IndexMap Nat).remove 0
        = (some x1, m1) ∧
      m1.remove 2 = (some x2, m2) ∧
      m2.insert 8 = some (2, m3) ∧
      m3.insert 9 = some (0, m4) :=
  claim_C5_lifo_reuse ⟨[.Some 5, .Some 6, .Some 7], none, 3⟩ 0 2 8 9
    (by decide) (by decide) (by decide)

/-- C3.  The state left by `clear`: after `insert;insert;remove 0`, the source
of `clear` zeroes `len` and empties the storage but leaves the free-list head
at `Some(0)`, contradicting the claimed "no free list" state. -/
theorem claim_C3_clear_keeps_stale_head :
    runOps [Op.ins 10, .ins 11, .rem 0] (IndexMap.new Nat)
      = some ⟨[.NoIndex, .Some 11], some 0, 1⟩ ∧
    IndexMap.clear ⟨[.NoIndex, .Some 11], some 0, 1⟩
      = ⟨([] : List (OptionIndex Nat)), some 0, 0⟩ ∧
    (IndexMap.clear ⟨[.NoIndex, .Some 11], some 0, 1⟩).head ≠ none := by
  refine ⟨by decide, by decide, by decide⟩

/-- C2.  On the reachable post-`clear` state with a stale head, `insert` reads
`self.data[0]` of an empty storage and aborts (`none` models the
out-of-bounds panic), instead of inserting and incrementing `len`. -/
theorem claim_C2_insert_aborts_after_clear :
    runOps [Op.ins 10, .ins 11, .rem 0, .clear] (IndexMap.new Nat)
      = some ⟨[], some 0, 0⟩ ∧
    IndexMap.insert (⟨[], some 0, 0⟩ : IndexMap Nat) 12 = none := by
  refine ⟨by decide, by decide⟩

/-- C1.  A state reachable by inserts and removes alone (free chain
`1 → 3 → 4`, last occupied cell `2`) on which `shrink_to_fit` finishes but
leaves the kept free cell `1` linking to index `4`, which is outside the new
storage of length `3`: part (c) of the claim fails.  The two following
inserts then abort while popping the corrupt list. -/
theorem claim_C1_shrink_corrupts_free_list :
    runOps [Op.ins 10, .ins 11, .ins 12, .ins 13, .ins 14, .rem 4, .rem 3, .rem 1]
        (IndexMap.new Nat)
      = some ⟨[.Some 10, .Index 3, .Some 12, .Index 4, .NoIndex], some 1, 2⟩ ∧
    IndexMap.shrinkToFit ⟨[.Some 10, .Index 3, .Some 12, .Index 4, .NoIndex], some 1, 2⟩
      = some ⟨[.Some 10, .Index 4, .Some 12], some 1, 2⟩ ∧
    (⟨[.Some 10, .Index 4, .Some 12], some 1, 2⟩ : IndexMap Nat).data.length = 3 ∧
    (⟨[.Some 10, .Index 4, .Some 12], some 1, 2⟩ : IndexMap Nat).data[1]?
      = some (.Index 4) ∧
    runOps [Op.shrink, .ins 20, .ins 21]
        (⟨[.Some 10, .Index 3, .Some 12, .Index 4, .NoIndex], some 1, 2⟩ : IndexMap Nat)
      = none := by
  refine ⟨by decide, by decide, by decide, by decide, by decide⟩

/-! ## What the iterators yield (C10) -/

/-- Unfolding `get` to the underlying cell. -/
theorem get_eq_some_iff {T : Type} (m : IndexMap T) (k : Nat) (v : T) :
    m.get k = some v ↔ m.data[k]? = some (.Some v) := by
  unfold IndexMap.get
  cases hc : m.data[k]? with
  | none => simp
  | some c => cases c <;> simp [OptionIndex.intoInner]

/-- Enumeration unfolding. -/
theorem enumFromIdx_cons {T : Type} (n : Nat) (c : OptionIndex T)
    (rest : List (OptionIndex T)) :
    enumFromIdx n (c :: rest) = (n, c) :: enumFromIdx (n + 1) rest := rfl

/-- Yield-list unfolding: a live cell is yielded. -/
theorem iterYields_cons_some {T : Type} (n : Nat) (v : T)
    (l : List (Nat × OptionIndex T)) :
    iterYields ((n, .Some v) :: l) = (n, v) :: iterYields l := rfl

/-- Yield-list unfolding: a link cell is skipped. -/
theorem iterYields_cons_index {T : Type} (n i : Nat)
    (l : List (Nat × OptionIndex T)) :
    iterYields ((n, .Index i) :: l) = iterYields l := rfl

/-- Yield-list unfolding: a terminator cell is skipped. -/
theorem iterYields_cons_noindex {T : Type} (n : Nat)
    (l : List (Nat × OptionIndex T)) :
    iterYields ((n, (.NoIndex : OptionIndex T)) :: l) = iterYields l := rfl

/-- Membership in the yield list of an enumerated suffix. -/
theorem iterYields_enumFrom_mem {T : Type} (data : List (OptionIndex T)) :
    ∀ (n k : Nat) (v : T),
      (k, v) ∈ iterYields (enumFromIdx n data)
        ↔ ∃ j, k = n + j ∧ data[j]? = some (.Some v) := by
  induction data with
  | nil => intro n k v; simp [enumFromIdx, iterYields]
  | cons c rest ih =>
    intro n k v
    cases c with
    | Some w =>
      rw [enumFromIdx_cons, iterYields_cons_some]
      constructor
      · intro hmem
        rcases List.mem_cons.mp hmem with heq | hrest
        · obtain ⟨hk, hv⟩ := Prod.mk.inj heq
          exact ⟨0, by omega, by simp [hv]⟩
        · obtain ⟨j, hj, hcell⟩ := (ih (n + 1) k v).mp hrest
          exact ⟨j + 1, by omega, by simpa using hcell⟩
      · rintro ⟨j, hk, hcell⟩
        cases j with
        | zero =>
          simp at hcell
          exact List.mem_cons.mpr (Or.inl (by simp [hk, hcell]))
        | succ j' =>
          refine List.mem_cons.mpr (Or.inr ((ih (n + 1) k v).mpr ⟨j', by omega, ?_⟩))
          simpa using hcell
    | Index i =>
      rw [enumFromIdx_cons, iterYields_cons_index, ih (n + 1) k v]
      constructor
      · rintro ⟨j, hk, hcell⟩
        exact ⟨j + 1, by omega, by simpa using hcell⟩
      · rintro ⟨j, hk, hcell⟩
        cases j with
        | zero => simp at hcell
        | succ j' => exact ⟨j', by omega, by simpa using hcell⟩
    | NoIndex =>
      rw [enumFromIdx_cons, iterYields_cons_noindex, ih (n + 1) k v]
      constructor
      · rintro ⟨j, hk, hcell⟩
        exact ⟨j + 1, by omega, by simpa using hcell⟩
      · rintro ⟨j, hk, hcell⟩
        cases j with
        | zero => simp at hcell
        | succ j' => exact ⟨j', by omega, by simpa using hcell⟩

/-- Every yielded key of an enumerated suffix is at least the offset. -/
theorem iterYields_enumFrom_ge {T : Type} (data : List (OptionIndex T)) :
    ∀ (n : Nat), ∀ q ∈ iterYields (enumFromIdx n data), n ≤ q.1 := by
  induction data with
  | nil => intro n q hq; simp [enumFromIdx, iterYields] at hq
  | cons c rest ih =>
    intro n q hq
    cases c with
    | Some w =>
      rw [enumFromIdx_cons, iterYields_cons_some] at hq
      rcases List.mem_cons.mp hq with heq | hrest
      · simp [heq]
      · exact Nat.le_of_succ_le (ih (n + 1) q hrest)
    | Index i =>
      rw [enumFromIdx_cons, iterYields_cons_index] at hq
      exact Nat.le_of_succ_le (ih (n + 1) q hq)
    | NoIndex =>
      rw [enumFromIdx_cons, iterYields_cons_noindex] at hq
      exact Nat.le_of_succ_le (ih (n + 1) q hq)

/-- The yielded keys of an enumerated suffix are strictly increasing. -/
theorem iterYields_enumFrom_pairwise {T : Type} (data : List (OptionIndex T)) :
    ∀ (n : Nat),
      List.Pairwise (fun a b => a.1 < b.1) (iterYields (enumFromIdx n data)) := by
  induction data with
  | nil => intro n; simp [enumFromIdx, iterYields]
  | cons c rest ih =>
    intro n
    cases c with
    | Some w =>
      rw [enumFromIdx_cons, iterYields_cons_some]
      refine List.Pairwise.cons ?_ (ih (n + 1))
      intro q hq
      exact Nat.lt_of_succ_le (iterYields_enumFrom_ge rest (n + 1) q hq)
    | Index i =>
      rw [enumFromIdx_cons, iterYields_cons_index]
      exact ih (n + 1)
    | NoIndex =>
      rw [enumFromIdx_cons, iterYields_cons_noindex]
      exact ih (n + 1)

/-- C10.  Every iterator of the family (`iter`, `iter_mut`, `into_iter`,
`drain` share the model state; `keys`, `values`, `values_mut` project it)
yields exactly the live entries — a pair `(k, v)` appears iff `get k`
returns `v`, hence each live key exactly once and no free cell — with keys
in strictly increasing order.  The drain iterator starts from the very same
state as `iter`. -/
theorem claim_C10_iterators_yield_live_entries_in_order {T : Type}
    (m : IndexMap T) :
    List.Pairwise (fun a b => a.1 < b.1) (iterYields (IndexMap.iterOf m).inner) ∧
    (∀ (k : Nat) (v : T),
      (k, v) ∈ iterYields (IndexMap.iterOf m).inner ↔ m.get k = some v) ∧
    (IndexMap.drainOf m).1 = IndexMap.iterOf m := by
  refine ⟨iterYields_enumFrom_pairwise m.data 0, ?_, rfl⟩
  intro k v
  show (k, v) ∈ iterYields (enumFromIdx 0 m.data) ↔ m.get k = some v
  rw [iterYields_enumFrom_mem m.data 0 k v, get_eq_some_iff]
  constructor
  · rintro ⟨j, hk, hcell⟩
    simpa [hk] using hcell
  · intro h
    exact ⟨k, by omega, h⟩

/-! ## The head-chain invariant

What is actually true of every completed-execution-reachable state: `len`
counts the live cells, and following free-list links from `head` crosses
distinct free in-bounds cells until either the terminator or a link that
falls outside the storage (such dangling links arise from `clear`/`drain`
leaving `head` behind on an emptied storage, and from the splice defect of
`shrink_to_fit`; a later `insert` aborts on them but no completed operation
ever corrupts the live count). -/

/-- A chain only reads the cells it lists: it survives any storage update
that agrees on them. -/
theorem BChain.congr {T : Type} {b : Nat} {d1 d2 : List (OptionIndex T)}
    {h : Nat} {l : List Nat} (hc : BChain b d1 h l)
    (hagree : ∀ j ∈ l, d2[j]? = d1[j]?) : BChain b d2 h l := by
  induction hc with
  | oob h hb => exact .oob h hb
  | term h hb hcell => exact .term h hb ((hagree h (by simp)) ▸ hcell)
  | link h n l hb hcell hch hnot ih =>
    refine .link h n l hb ((hagree h (by simp)) ▸ hcell) ?_ hnot
    exact ih fun j hj => hagree j (by simp [hj])

/-- Every cell listed by a chain is free. -/
theorem BChain.cells_free {T : Type} {b : Nat} {data : List (OptionIndex T)}
    {h : Nat} {l : List Nat} (hc : BChain b data h l) :
    ∀ j ∈ l, ∃ c, data[j]? = some c ∧ c.isInner = false := by
  induction hc with
  | oob h hb => intro j hj; simp at hj
  | term h hb hcell =>
    intro j hj
    simp at hj
    exact ⟨.NoIndex, hj ▸ hcell, rfl⟩
  | link h n l hb hcell hch hnot ih =>
    intro j hj
    rcases List.mem_cons.mp hj with rfl | hj'
    · exact ⟨.Index n, hcell, rfl⟩
    · exact ih j hj'

/-- A chain list is empty or starts at its root. -/
theorem BChain.shape {T : Type} {b : Nat} {data : List (OptionIndex T)}
    {h : Nat} {l : List Nat} (hc : BChain b data h l) :
    l = [] ∨ ∃ l', l = h :: l' := by
  cases hc with
  | oob h hb => exact Or.inl rfl
  | term h hb hcell => exact Or.inr ⟨[], rfl⟩
  | link h n l hb hcell hch hnot => exact Or.inr ⟨l, rfl⟩

/-- Replacing a cell shifts the live count by the in/out status of the old
and new cell. -/
theorem countInner_set {T : Type} :
    ∀ (data : List (OptionIndex T)) (i : Nat) (c0 c : OptionIndex T),
      data[i]? = some c0 →
      countInner (data.set i c) + (if c0.isInner then 1 else 0)
        = countInner data + (if c.isInner then 1 else 0) := by
  intro data
  induction data with
  | nil => intro i c0 c h; simp at h
  | cons d rest ih =>
    intro i c0 c h
    cases i with
    | zero =>
      simp at h
      subst h
      simp only [List.set_cons_zero, countInner, List.countP_cons]
      omega
    | succ i' =>
      simp only [List.getElem?_cons_succ] at h
      simp only [List.set_cons_succ, countInner, List.countP_cons]
      have := ih i' c0 c h
      simp only [countInner] at this
      omega

/-- The live count ignores cells beyond the storage; a live cell is in
bounds. -/
theorem countInner_pos_of_inner {T : Type} :
    ∀ (data : List (OptionIndex T)) (i : Nat) (v : T),
      data[i]? = some (.Some v) → 0 < countInner data := by
  intro data
  induction data with
  | nil => intro i v h; simp at h
  | cons d rest ih =>
    intro i v h
    cases i with
    | zero =>
      simp at h
      simp [countInner, List.countP_cons, h, OptionIndex.isInner]
    | succ i' =>
      simp only [List.getElem?_cons_succ] at h
      have := ih i' v h
      simp only [countInner, List.countP_cons] at *
      omega

/-- Chain inversion at an in-bounds link cell. -/
theorem BChain.link_inv {T : Type} {b : Nat} {data : List (OptionIndex T)}
    {h n : Nat} {l : List Nat} (hc : BChain b data h l) (hb : h < b)
    (hcell : data[h]? = some (.Index n)) :
    ∃ l', l = h :: l' ∧ BChain b data n l' ∧ h ∉ l' := by
  cases hc with
  | oob _ hle => omega
  | term _ _ hcell' => rw [hcell] at hcell'; exact absurd hcell' (by simp)
  | link h n' l' hlt hcell' hch hnot =>
    rw [hcell] at hcell'
    obtain rfl : n' = n := by
      have := Option.some.inj hcell'
      cases this; rfl
    exact ⟨l', rfl, hch, hnot⟩

/-- An occupied cell is never on a chain. -/
theorem BChain.not_mem_of_inner {T : Type} {b : Nat}
    {data : List (OptionIndex T)} {h i : Nat} {l : List Nat} {v : T}
    (hc : BChain b data h l) (hcell : data[i]? = some (.Some v)) : i ∉ l := by
  intro hmem
  obtain ⟨c, hcv, hfree⟩ := hc.cells_free i hmem
  rw [hcell] at hcv
  cases Option.some.inj hcv
  simp [OptionIndex.isInner] at hfree

/-- `insert` with no free list: push at the end. -/
theorem insert_spec_none {T : Type} (d : List (OptionIndex T)) (len : Nat)
    (v : T) :
    IndexMap.insert ⟨d, none, len⟩ v
      = some (d.length, ⟨d ++ [.Some v], none, len + 1⟩) := rfl

/-- `insert` popping the free-list head. -/
theorem insert_spec_some {T : Type} (d : List (OptionIndex T)) (h len : Nat)
    (v : T) {c : OptionIndex T} (hc : d[h]? = some c) :
    IndexMap.insert ⟨d, some h, len⟩ v
      = some (h, ⟨d.set h (.Some v), c.intoIndex, len + 1⟩) := by
  simp only [IndexMap.insert]
  rw [hc]

/-- `insert` aborting on an out-of-bounds head. -/
theorem insert_spec_oob {T : Type} (d : List (OptionIndex T)) (h len : Nat)
    (v : T) (hc : d[h]? = none) :
    IndexMap.insert ⟨d, some h, len⟩ v = none := by
  simp only [IndexMap.insert]
  rw [hc]

/-- `remove` of an occupied cell with no prior free list. -/
theorem remove_spec_inner_none {T : Type} (d : List (OptionIndex T))
    (i len : Nat) {v : T} (hc : d[i]? = some (.Some v)) :
    IndexMap.remove ⟨d, none, len⟩ i
      = (some v, ⟨d.set i .NoIndex, some i, len - 1⟩) := by
  unfold IndexMap.remove
  rw [hc]

/-- `remove` of an occupied cell pushing onto an existing free list. -/
theorem remove_spec_inner_some {T : Type} (d : List (OptionIndex T))
    (i len hd : Nat) {v : T} (hc : d[i]? = some (.Some v)) :
    IndexMap.remove ⟨d, some hd, len⟩ i
      = (some v, ⟨d.set i (.Index hd), some i, len - 1⟩) := by
  unfold IndexMap.remove
  rw [hc]

/-- The empty map is well-formed. -/
theorem wf_new {T : Type} : WF (IndexMap.new T) := by
  refine ⟨rfl, ?_⟩
  intro h hh
  simp [IndexMap.new] at hh

/-- `clear` always yields a well-formed state: the stale head it leaves is an
out-of-bounds root, so the chain is the empty one. -/
theorem wf_clear {T : Type} (m : IndexMap T) : WF m.clear := by
  refine ⟨rfl, ?_⟩
  intro h _
  exact ⟨[], .oob h (Nat.zero_le h)⟩

/-- The container left behind by `drain` is well-formed for the same
reason. -/
theorem wf_drain {T : Type} (m : IndexMap T) : WF (m.drainOf).2 := by
  refine ⟨rfl, ?_⟩
  intro h _
  exact ⟨[], .oob h (Nat.zero_le h)⟩

/-- A completed `insert` preserves well-formedness. -/
theorem wf_insert {T : Type} {m : IndexMap T} {v : T} {k : Nat}
    {m' : IndexMap T} (hm : WF m) (h : m.insert v = some (k, m')) : WF m' := by
  obtain ⟨d, mh, ml⟩ := m
  obtain ⟨hcount, hchain⟩ := hm
  simp only [] at hcount hchain
  cases mh with
  | none =>
    rw [insert_spec_none d ml v] at h
    obtain ⟨rfl, rfl⟩ : d.length = k ∧
        (⟨d ++ [.Some v], none, ml + 1⟩ : IndexMap T) = m' := by
      have := Option.some.inj h
      exact ⟨congrArg Prod.fst this, congrArg Prod.snd this⟩
    refine ⟨?_, ?_⟩
    · show ml + 1 = countInner (d ++ [.Some v])
      simp [countInner, List.countP_append, hcount, OptionIndex.isInner]
    · intro h hh; simp at hh
  | some hd =>
    cases hc : d[hd]? with
    | none => rw [insert_spec_oob d hd ml v hc] at h; exact absurd h (by simp)
    | some c =>
      rw [insert_spec_some d hd ml v hc] at h
      obtain ⟨rfl, rfl⟩ : hd = k ∧
          (⟨d.set hd (.Some v), c.intoIndex, ml + 1⟩ : IndexMap T) = m' := by
        have := Option.some.inj h
        exact ⟨congrArg Prod.fst this, congrArg Prod.snd this⟩
      obtain ⟨l, hl⟩ := hchain hd rfl
      have hlen : hd < d.length := (List.getElem?_eq_some.mp hc).1
      have hfree : c.isInner = false := by
        cases hl with
        | oob _ hle => omega
        | term _ _ hcell => rw [hc] at hcell; cases Option.some.inj hcell; rfl
        | link _ n l' _ hcell _ _ =>
          rw [hc] at hcell; cases Option.some.inj hcell; rfl
      constructor
      · show ml + 1 = countInner (d.set hd (.Some v))
        have := countInner_set d hd c (.Some v) hc
        rw [hfree] at this
        simp [OptionIndex.isInner] at this
        omega
      · intro nh hnh
        show ∃ l, BChain (d.set hd (.Some v)).length (d.set hd (.Some v)) nh l
        cases c with
        | Some w => simp [OptionIndex.isInner] at hfree
        | NoIndex => simp [OptionIndex.intoIndex] at hnh
        | Index n =>
          simp only [OptionIndex.intoIndex] at hnh
          cases Option.some.inj hnh
          obtain ⟨l', rfl, hch', hnot⟩ := hl.link_inv hlen hc
          refine ⟨l', ?_⟩
          rw [List.length_set]
          exact hch'.congr fun j hj =>
            List.getElem?_set_ne (fun he => hnot (by rw [he]; exact hj))

/-- `remove` preserves well-formedness. -/
theorem wf_remove {T : Type} {m : IndexMap T} (hm : WF m) (i : Nat) :
    WF (m.remove i).2 := by
  obtain ⟨d, mh, ml⟩ := m
  obtain ⟨hcount, hchain⟩ := hm
  simp only [] at hcount hchain
  cases hc : d[i]? with
  | none =>
    unfold IndexMap.remove
    rw [show (⟨d, mh, ml⟩ : IndexMap T).data = d from rfl, hc]
    exact ⟨hcount, hchain⟩
  | some c =>
    cases c with
    | Index j =>
      unfold IndexMap.remove
      rw [show (⟨d, mh, ml⟩ : IndexMap T).data = d from rfl, hc]
      exact ⟨hcount, hchain⟩
    | NoIndex =>
      unfold IndexMap.remove
      rw [show (⟨d, mh, ml⟩ : IndexMap T).data = d from rfl, hc]
      exact ⟨hcount, hchain⟩
    | Some v =>
      have hlen : i < d.length := (List.getElem?_eq_some.mp hc).1
      have hpos : 0 < countInner d := countInner_pos_of_inner d i v hc
      cases mh with
      | none =>
        rw [remove_spec_inner_none d i ml hc]
        refine ⟨?_, ?_⟩
        · show ml - 1 = countInner (d.set i .NoIndex)
          have := countInner_set d i (.Some v) (.NoIndex) hc
          simp [OptionIndex.isInner] at this
          omega
        · intro nh hnh
          cases Option.some.inj hnh
          refine ⟨[i], ?_⟩
          show BChain (d.set i .NoIndex).length _ _ _
          rw [List.length_set]
          refine .term i hlen ?_
          rw [List.getElem?_set_self (by simpa using hlen)]
      | some hd =>
        rw [remove_spec_inner_some d i ml hd hc]
        refine ⟨?_, ?_⟩
        · show ml - 1 = countInner (d.set i (.Index hd))
          have := countInner_set d i (.Some v) (.Index hd) hc
          simp [OptionIndex.isInner] at this
          omega
        · intro nh hnh
          cases Option.some.inj hnh
          obtain ⟨l, hl⟩ := hchain hd rfl
          have hnmem : i ∉ l := hl.not_mem_of_inner hc
          refine ⟨i :: l, ?_⟩
          show BChain (d.set i (.Index hd)).length _ _ _
          rw [List.length_set]
          refine .link i hd l hlen ?_ ?_ hnmem
          · rw [List.getElem?_set_self (by simpa using hlen)]
          · exact hl.congr fun j hj =>
              List.getElem?_set_ne (fun he => hnmem (by rw [he]; exact hj))

/-- The value mutation available through `get_mut` and the mutable iterators
preserves well-formedness. -/
theorem wf_modify {T : Type} {m : IndexMap T} (hm : WF m) (k : Nat) (v : T) :
    WF (if m.containsKey k
      then (⟨m.data.set k (.Some v), m.head, m.len⟩ : IndexMap T) else m) := by
  by_cases hk : m.containsKey k = true
  · rw [if_pos hk]
    obtain ⟨w, hc⟩ := containsKey_cell hk
    obtain ⟨hcount, hchain⟩ := hm
    refine ⟨?_, ?_⟩
    · show m.len = countInner (m.data.set k (.Some v))
      have := countInner_set m.data k (.Some w) (.Some v) hc
      simp [OptionIndex.isInner] at this
      omega
    · intro nh hnh
      simp only [] at hnh
      obtain ⟨l, hl⟩ := hchain nh hnh
      have hnmem : k ∉ l := hl.not_mem_of_inner hc
      refine ⟨l, ?_⟩
      show BChain (m.data.set k (.Some v)).length _ _ _
      rw [List.length_set]
      exact hl.congr fun j hj =>
        List.getElem?_set_ne (fun he => hnmem (by rw [he]; exact hj))
  · rw [if_neg hk]
    exact hm

/-! ## `retain` is removal in ascending order (C7) -/

/-- The predicate-call trace is the enumerated live cells. -/
theorem retainCallsAux_eq {T : Type} :
    ∀ (B : List (OptionIndex T)) (n : Nat),
      retainCallsAux B n = iterYields (enumFromIdx n B) := by
  intro B
  induction B with
  | nil => intro n; rfl
  | cons c rest ih =>
    intro n
    cases c with
    | Some v => rw [enumFromIdx_cons, iterYields_cons_some]; exact congrArg _ (ih (n + 1))
    | Index i => rw [enumFromIdx_cons, iterYields_cons_index]; exact ih (n + 1)
    | NoIndex => rw [enumFromIdx_cons, iterYields_cons_noindex]; exact ih (n + 1)

/-- The scan of `retain` over a suffix is the fold of `remove` over that
suffix's failing keys, relative to any already-scanned part `A` of the
storage. -/
theorem retainAux_removeList {T : Type} (p : Nat → T → Bool) :
    ∀ (B A : List (OptionIndex T)) (hd : Option Nat) (len : Nat),
      removeList ⟨A ++ B, hd, len⟩
          (((iterYields (enumFromIdx A.length B)).filter
              fun q => !(p q.1 q.2)).map Prod.fst)
        = ⟨A ++ (retainAux p B A.length hd len).1,
            (retainAux p B A.length hd len).2.1,
            (retainAux p B A.length hd len).2.2⟩ := by
  intro B
  induction B with
  | nil =>
    intro A hd len
    simp [enumFromIdx, iterYields, removeList, retainAux]
  | cons c rest ih =>
    intro A hd len
    cases c with
    | Some v =>
      rw [enumFromIdx_cons, iterYields_cons_some]
      by_cases hp : p A.length v = true
      · rw [List.filter_cons_of_neg (by simp [hp])]
        have step := ih (A ++ [.Some v]) hd len
        simp only [List.length_append, List.length_cons, List.length_nil,
          Nat.zero_add, List.append_assoc, List.singleton_append] at step
        rw [step]
        simp only [retainAux, hp, if_true, List.append_assoc,
          List.singleton_append]
      · rw [List.filter_cons_of_pos (by simp [hp])]
        simp only [List.map_cons, removeList, List.foldl_cons]
        have hcell : (A ++ .Some v :: rest)[A.length]? = some (.Some v) := by
          rw [List.getElem?_append_right (Nat.le_refl _)]
          simp
        have hrm : (IndexMap.remove ⟨A ++ .Some v :: rest, hd, len⟩ A.length).2
            = ⟨A ++ (match hd with
                | some h => (.Index h : OptionIndex T)
                | none => .NoIndex) :: rest, some A.length, len - 1⟩ := by
          cases hd with
          | none =>
            rw [remove_spec_inner_none _ _ _ hcell]
            simp [List.set_append_right _ _ (Nat.le_refl A.length)]
          | some h0 =>
            rw [remove_spec_inner_some _ _ _ _ hcell]
            simp [List.set_append_right _ _ (Nat.le_refl A.length)]
        rw [hrm]
        have step := ih (A ++ [(match hd with
            | some h => (.Index h : OptionIndex T)
            | none => .NoIndex)]) (some A.length) (len - 1)
        simp only [List.length_append, List.length_cons, List.length_nil,
          Nat.zero_add, List.append_assoc, List.singleton_append,
          removeList] at step
        rw [step]
        simp only [retainAux, hp, Bool.false_eq_true, if_false,
          List.append_assoc, List.singleton_append]
    | Index i =>
      rw [enumFromIdx_cons, iterYields_cons_index]
      have step := ih (A ++ [.Index i]) hd len
      simp only [List.length_append, List.length_cons, List.length_nil,
        Nat.zero_add, List.append_assoc, List.singleton_append] at step
      rw [step]
      simp only [retainAux, List.append_assoc, List.singleton_append]
    | NoIndex =>
      rw [enumFromIdx_cons, iterYields_cons_noindex]
      have step := ih (A ++ [(.NoIndex : OptionIndex T)]) hd len
      simp only [List.length_append, List.length_cons, List.length_nil,
        Nat.zero_add, List.append_assoc, List.singleton_append] at step
      rw [step]
      simp only [retainAux, List.append_assoc, List.singleton_append]

/-- Folding `remove` over any key list preserves well-formedness. -/
theorem wf_removeList {T : Type} :
    ∀ (ks : List Nat) (m : IndexMap T), WF m → WF (removeList m ks) := by
  intro ks
  induction ks with
  | nil => intro m hm; exact hm
  | cons k ks ih =>
    intro m hm
    exact ih (m.remove k).2 (wf_remove hm k)

/-- `retain` preserves well-formedness. -/
theorem wf_retain {T : Type} {m : IndexMap T} (hm : WF m)
    (p : Nat → T → Bool) : WF (m.retain p) := by
  have h := retainAux_removeList p m.data [] m.head m.len
  simp only [List.nil_append, List.length_nil] at h
  have hr : m.retain p
      = ⟨(retainAux p m.data 0 m.head m.len).1,
          (retainAux p m.data 0 m.head m.len).2.1,
          (retainAux p m.data 0 m.head m.len).2.2⟩ := rfl
  rw [hr, ← h]
  exact wf_removeList _ _ hm

/-- C7.  `retain p` calls the predicate exactly once per initially-live cell
in ascending index order (`retainCalls` lists exactly the live entries in
scan order), and its final state — storage, free-list head and `len` — is
that of removing the failing keys through the public `remove`, in strictly
ascending index order (`falseKeys` is strictly sorted). -/
theorem claim_C7_retain_is_ascending_removal {T : Type} (m : IndexMap T)
    (p : Nat → T → Bool) :
    m.retainCalls = iterYields (enumFromIdx 0 m.data) ∧
    m.retain p = removeList m (falseKeys m p) ∧
    List.Pairwise (· < ·) (falseKeys m p) := by
  refine ⟨retainCallsAux_eq m.data 0, ?_, ?_⟩
  · have h := retainAux_removeList p m.data [] m.head m.len
    simp only [List.nil_append, List.length_nil] at h
    have hfk : falseKeys m p
        = ((iterYields (enumFromIdx 0 m.data)).filter
            fun q => !(p q.1 q.2)).map Prod.fst := rfl
    rw [hfk]
    exact h.symm
  · have hp := iterYields_enumFrom_pairwise m.data 0
    have hf : List.Pairwise (fun a b => a.1 < b.1)
        ((iterYields (enumFromIdx 0 m.data)).filter fun q => !(p q.1 q.2)) :=
      hp.filter _
    unfold falseKeys
    exact (List.pairwise_map).mpr (by
      exact hf.imp (fun hab => hab))

/-! ## The `shrink_to_fit` walk (C6 machinery) -/

/-- If the reverse scan finds no live cell, every cell is free. -/
theorem lastInnerAux_none_free {T : Type} :
    ∀ (data : List (OptionIndex T)) (s : Nat), lastInnerAux data s = none →
      ∀ (i : Nat) (c : OptionIndex T), data[i]? = some c →
        c.isInner = false := by
  intro data
  induction data with
  | nil => intro s _ i c hc; simp at hc
  | cons d rest ih =>
    intro s hnone i c hc
    unfold lastInnerAux at hnone
    cases hrest : lastInnerAux rest (s + 1) with
    | some j => rw [hrest] at hnone; simp at hnone
    | none =>
      rw [hrest] at hnone
      by_cases hd : d.isInner = true
      · rw [if_pos hd] at hnone; simp at hnone
      · cases i with
        | zero =>
          simp at hc
          subst hc
          simpa using hd
        | succ i' => exact ih (s + 1) hrest i' c (by simpa using hc)

/-- What the reverse scan returns: the greatest index holding a live cell. -/
theorem lastInnerAux_some_spec {T : Type} :
    ∀ (data : List (OptionIndex T)) (s last : Nat),
      lastInnerAux data s = some last →
      ∃ j, last = s + j ∧ j < data.length ∧
        (∃ v, data[j]? = some (.Some v)) ∧
        ∀ i c, j < i → data[i]? = some c → c.isInner = false := by
  intro data
  induction data with
  | nil => intro s last h; simp [lastInnerAux] at h
  | cons d rest ih =>
    intro s last h
    unfold lastInnerAux at h
    cases hrest : lastInnerAux rest (s + 1) with
    | some j0 =>
      rw [hrest] at h
      have hlast : last = j0 := (Option.some.inj h).symm
      subst hlast
      obtain ⟨j, hj, hjlen, ⟨v, hv⟩, hmax⟩ := ih (s + 1) last hrest
      refine ⟨j + 1, by omega, by simpa using Nat.succ_lt_succ hjlen,
        ⟨v, by simpa using hv⟩, ?_⟩
      intro i c hi hc
      cases i with
      | zero => omega
      | succ i' => exact hmax i' c (by omega) (by simpa using hc)
    | none =>
      rw [hrest] at h
      by_cases hd : d.isInner = true
      · rw [if_pos hd] at h
        have hlast : last = s := (Option.some.inj h).symm
        subst hlast
        cases hdv : d with
        | Some v =>
          refine ⟨0, by omega, by simp, ⟨v, by simp [hdv]⟩, ?_⟩
          intro i c hi hc
          cases i with
          | zero => omega
          | succ i' =>
            exact lastInnerAux_none_free rest (last + 1) hrest i' c
              (by simpa using hc)
        | Index k => rw [hdv] at hd; simp [OptionIndex.isInner] at hd
        | NoIndex => rw [hdv] at hd; simp [OptionIndex.isInner] at hd
      · rw [if_neg hd] at h; simp at h

/-- `lastInner?` spec at offset zero. -/
theorem lastInner?_spec {T : Type} {data : List (OptionIndex T)} {last : Nat}
    (h : lastInner? data = some last) :
    last < data.length ∧ (∃ v, data[last]? = some (.Some v)) ∧
      ∀ i c, last < i → data[i]? = some c → c.isInner = false := by
  obtain ⟨j, hj, hjlen, hv, hmax⟩ := lastInnerAux_some_spec data 0 last h
  obtain rfl : last = j := by omega
  exact ⟨hjlen, hv, hmax⟩

/-- What one completed free-list walk of `shrink_to_fit` does, by induction
along the chain: storage length is unchanged; only chain cells are written
and they stay free; the walk ends on a chain cell holding the terminator;
from every chain cell below `last` a (possibly dangling) bounded chain
survives in the result; and the head/flag pair is updated to the first
non-final chain cell below `last` exactly when `should_set_head` was set. -/
theorem walkFree_spec {T : Type} {last : Nat} {vlast : T} :
    ∀ (l : List Nat) (data : List (OptionIndex T)) (h : Nat) (hd : Option Nat)
      (shd : Bool) (fuel : Nat) (data' : List (OptionIndex T)) (e : Nat)
      (hd' : Option Nat) (shd' : Bool),
      BChain data.length data h l →
      data[last]? = some (.Some vlast) →
      walkFree last data h hd shd fuel = some (data', e, hd', shd') →
      data'.length = data.length ∧
      (∀ j, j ∉ l → data'[j]? = data[j]?) ∧
      (∀ j ∈ l, ∃ c, data'[j]? = some c ∧ c.isInner = false) ∧
      e ∈ l ∧
      data'[e]? = some .NoIndex ∧
      (∀ x ∈ l, x < last →
        ∃ q, BChain (last + 1) data' x q ∧ ∀ y ∈ q, y ∈ l) ∧
      (shd = false → hd' = hd ∧ shd' = false) ∧
      (shd = true →
        match (l.dropLast.filter fun t => decide (t < last)).head? with
        | some t => hd' = some t ∧ shd' = false
        | none => hd' = hd ∧ shd' = true) := by
  intro l
  induction l with
  | nil =>
    intro data h hd shd fuel data' e hd' shd' hchain hlast hwalk
    cases hchain with
    | oob _ hle =>
      have hnone : data[h]? = none := List.getElem?_eq_none hle
      cases fuel with
      | zero => simp [walkFree] at hwalk
      | succ f => simp [walkFree, hnone] at hwalk
  | cons hh ll ih =>
    intro data h hd shd fuel data' e hd' shd' hchain hlast hwalk
    have hlastlt : last < data.length := (List.getElem?_eq_some.mp hlast).1
    cases hchain with
    | term _ hb hcell =>
      -- the terminator: the loop exits at once
      cases fuel with
      | zero => simp [walkFree] at hwalk
      | succ f =>
        simp only [walkFree, hcell] at hwalk
        obtain ⟨h1, h2, h3, h4⟩ :
            data = data' ∧ hh = e ∧ hd = hd' ∧ shd = shd' := by
          have hx := Option.some.inj hwalk
          exact ⟨congrArg Prod.fst hx, congrArg (fun r => r.2.1) hx,
            congrArg (fun r => r.2.2.1) hx, congrArg (fun r => r.2.2.2) hx⟩
        subst h1; subst h2; subst h3; subst h4
        refine ⟨rfl, fun j _ => rfl, ?_, by simp, hcell, ?_, ?_, ?_⟩
        · intro j hj
          simp at hj
          subst hj
          exact ⟨.NoIndex, hcell, rfl⟩
        · intro x hx hxlast
          simp at hx
          subst hx
          exact ⟨[x], .term x (by omega) hcell, by simp⟩
        · intro hs; subst hs; exact ⟨rfl, by trivial⟩
        · intro hs
          subst hs
          simp only [List.dropLast_single, List.filter_nil, List.head?_nil]
          exact ⟨by trivial, by trivial⟩
    | link _ n _ hb hcell hch hnot =>
      -- a link cell: one loop iteration, then recurse
      have hne_hlast : hh ≠ last := by
        intro hEq
        rw [hEq, hlast] at hcell
        exact absurd (Option.some.inj hcell) (by simp)
      cases fuel with
      | zero => simp [walkFree] at hwalk
      | succ f =>
        simp only [walkFree, hcell] at hwalk
        by_cases hln : last < n
        · -- the link target lies in the region to be discarded: splice
          rw [if_pos hln] at hwalk
          cases hch with
          | oob _ hle =>
            rw [List.getElem?_eq_none hle] at hwalk
            simp at hwalk
          | term _ hbn hcn =>
            -- ll = [n]: the discarded cell held the terminator
            rw [hcn] at hwalk
            simp only [] at hwalk
            have hhn : hh ≠ n := fun hEq => hnot (by rw [hEq]; simp)
            have hchain2 : BChain (data.set hh .NoIndex).length
                (data.set hh .NoIndex) n [n] := by
              rw [List.length_set]
              refine (BChain.term n hbn hcn).congr fun j hj => ?_
              simp at hj
              subst hj
              exact List.getElem?_set_ne hhn
            have hlast2 : (data.set hh .NoIndex)[last]? = some (.Some vlast) := by
              rw [List.getElem?_set_ne hne_hlast]
              exact hlast
            obtain ⟨ih1, ih2, ih3, ih4, ih5, ih6, ih7, ih8⟩ :=
              ih (data.set hh .NoIndex) n _ _ f data' e hd' shd'
                hchain2 hlast2 hwalk
            have hself : data'[hh]? = some (.NoIndex) := by
              rw [ih2 hh (by exact hnot), List.getElem?_set_self hb]
            refine ⟨by rw [ih1, List.length_set], ?_, ?_, ?_, ih5, ?_, ?_, ?_⟩
            · intro j hj
              simp at hj
              rw [ih2 j (by simp [hj.2]), List.getElem?_set_ne (Ne.symm hj.1)]
            · intro j hj
              rcases List.mem_cons.mp hj with rfl | hj'
              · exact ⟨.NoIndex, hself, rfl⟩
              · exact ih3 j hj'
            · exact List.mem_cons_of_mem _ ih4
            · intro x hx hxl
              rcases List.mem_cons.mp hx with rfl | hx'
              · exact ⟨[x], .term x (by omega) hself, by simp⟩
              · obtain ⟨q, hq, hqsub⟩ := ih6 x hx' hxl
                exact ⟨q, hq, fun y hy => List.mem_cons_of_mem _ (hqsub y hy)⟩
            · intro hs
              subst hs
              simp at ih7
              exact ih7
            · intro hs
              subst hs
              by_cases hhl : hh < last
              · simp only [Bool.true_and, decide_eq_true_eq, if_pos hhl] at ih7
                simp at ih7
                obtain ⟨hhd', hshd'⟩ := ih7
                rw [List.dropLast_cons₂, List.dropLast_single,
                  List.filter_cons_of_pos (by simpa using hhl)]
                simp only [List.head?_cons]
                exact ⟨hhd', hshd'⟩
              · simp only [Bool.true_and, decide_eq_true_eq, if_neg hhl] at ih8
                simp at ih8
                rw [List.dropLast_cons₂, List.dropLast_single,
                  List.filter_cons_of_neg (by simpa using hhl)]
                simp only [List.filter_nil]
                exact ih8
          | link _ m ll2 hbn hcn hch2 hnot2 =>
            -- ll = n :: ll2: the discarded cell links on to m
            rw [hcn] at hwalk
            simp only [] at hwalk
            have hchain2 : BChain (data.set hh (.Index m)).length
                (data.set hh (.Index m)) n (n :: ll2) := by
              rw [List.length_set]
              refine (BChain.link n m ll2 hbn hcn hch2 hnot2).congr
                fun j hj => List.getElem?_set_ne ?_
              intro hEq
              exact hnot (by rw [hEq]; exact hj)
            have hlast2 : (data.set hh (.Index m))[last]? = some (.Some vlast) := by
              rw [List.getElem?_set_ne hne_hlast]
              exact hlast
            obtain ⟨ih1, ih2, ih3, ih4, ih5, ih6, ih7, ih8⟩ :=
              ih (data.set hh (.Index m)) n _ _ f data' e hd' shd'
                hchain2 hlast2 hwalk
            have hself : data'[hh]? = some (.Index m) := by
              rw [ih2 hh (by exact hnot), List.getElem?_set_self hb]
            refine ⟨by rw [ih1, List.length_set], ?_, ?_, ?_, ih5, ?_, ?_, ?_⟩
            · intro j hj
              simp at hj
              rw [ih2 j (by simp [hj.2]), List.getElem?_set_ne (Ne.symm hj.1)]
            · intro j hj
              rcases List.mem_cons.mp hj with rfl | hj'
              · exact ⟨.Index m, hself, rfl⟩
              · exact ih3 j hj'
            · exact List.mem_cons_of_mem _ ih4
            · intro x hx hxl
              rcases List.mem_cons.mp hx with rfl | hx'
              · by_cases hm : last < m
                · exact ⟨[x], .link x m [] (by omega) hself
                    (.oob m (by omega)) (by simp), by simp⟩
                · -- the spliced-in target is kept: continue along its chain
                  have hmmem : m ∈ ll2 := by
                    cases hch2 with
                    | oob _ hle => omega
                    | term _ _ _ => simp
                    | link _ m2 ll3 _ _ _ _ => simp
                  have hmne : m ≠ last := by
                    intro hEq
                    obtain ⟨c, hcv, hfreec⟩ := hch2.cells_free m hmmem
                    rw [hEq, hlast] at hcv
                    cases Option.some.inj hcv
                    simp [OptionIndex.isInner] at hfreec
                  obtain ⟨q, hq, hqsub⟩ :=
                    ih6 m (List.mem_cons_of_mem _ hmmem) (by omega)
                  refine ⟨x :: q, .link x m q (by omega) hself hq
                    (fun hmemx => hnot (hqsub x hmemx)), ?_⟩
                  intro y hy
                  rcases List.mem_cons.mp hy with rfl | hy'
                  · simp
                  · exact List.mem_cons_of_mem _ (hqsub y hy')
              · obtain ⟨q, hq, hqsub⟩ := ih6 x hx' hxl
                exact ⟨q, hq, fun y hy => List.mem_cons_of_mem _ (hqsub y hy)⟩
            · intro hs
              subst hs
              simp at ih7
              exact ih7
            · intro hs
              subst hs
              by_cases hhl : hh < last
              · simp only [Bool.true_and, decide_eq_true_eq, if_pos hhl] at ih7
                simp at ih7
                obtain ⟨hhd', hshd'⟩ := ih7
                rw [List.dropLast_cons₂,
                  List.filter_cons_of_pos (by simpa using hhl)]
                simp only [List.head?_cons]
                exact ⟨hhd', hshd'⟩
              · simp only [Bool.true_and, decide_eq_true_eq, if_neg hhl] at ih8
                simp at ih8
                rw [List.dropLast_cons₂,
                  List.filter_cons_of_neg (by simpa using hhl)]
                simpa using ih8
        · -- the link target is kept: plain step
          rw [if_neg hln] at hwalk
          have hllstruct : ll ≠ [] ∧ n ∈ ll := by
            cases hch with
            | oob _ hle => omega
            | term _ _ _ => exact ⟨by simp, by simp⟩
            | link _ m ll2 _ _ _ _ => exact ⟨by simp, by simp⟩
          have hnne : n ≠ last := by
            intro hEq
            obtain ⟨c, hcv, hfreec⟩ := hch.cells_free n hllstruct.2
            rw [hEq, hlast] at hcv
            cases Option.some.inj hcv
            simp [OptionIndex.isInner] at hfreec
          obtain ⟨ih1, ih2, ih3, ih4, ih5, ih6, ih7, ih8⟩ :=
            ih data n _ _ f data' e hd' shd' hch hlast hwalk
          have hself : data'[hh]? = some (.Index n) := by
            rw [ih2 hh (by exact hnot)]
            exact hcell
          refine ⟨ih1, ?_, ?_, ?_, ih5, ?_, ?_, ?_⟩
          · intro j hj
            simp at hj
            exact ih2 j (by simp [hj.2])
          · intro j hj
            rcases List.mem_cons.mp hj with rfl | hj'
            · exact ⟨.Index n, hself, rfl⟩
            · exact ih3 j hj'
          · exact List.mem_cons_of_mem _ ih4
          · intro x hx hxl
            rcases List.mem_cons.mp hx with rfl | hx'
            · obtain ⟨q, hq, hqsub⟩ := ih6 n hllstruct.2 (by omega)
              refine ⟨x :: q, .link x n q (by omega) hself hq
                (fun hmemx => hnot (hqsub x hmemx)), ?_⟩
              intro y hy
              rcases List.mem_cons.mp hy with rfl | hy'
              · simp
              · exact List.mem_cons_of_mem _ (hqsub y hy')
            · obtain ⟨q, hq, hqsub⟩ := ih6 x hx' hxl
              exact ⟨q, hq, fun y hy => List.mem_cons_of_mem _ (hqsub y hy)⟩
          · intro hs
            subst hs
            simp at ih7
            exact ih7
          · intro hs
            subst hs
            obtain ⟨llh, llt, rfl⟩ := List.exists_cons_of_ne_nil hllstruct.1
            by_cases hhl : hh < last
            · simp only [Bool.true_and, decide_eq_true_eq, if_pos hhl] at ih7
              simp at ih7
              obtain ⟨hhd', hshd'⟩ := ih7
              rw [List.dropLast_cons₂,
                List.filter_cons_of_pos (by simpa using hhl)]
              simp only [List.head?_cons]
              exact ⟨hhd', hshd'⟩
            · simp only [Bool.true_and, decide_eq_true_eq, if_neg hhl] at ih8
              simp at ih8
              rw [List.dropLast_cons₂,
                List.filter_cons_of_neg (by simpa using hhl)]
              simpa using ih8

/-- Every listed chain cell is below the bound. -/
theorem BChain.cells_lt {T : Type} {b : Nat} {data : List (OptionIndex T)}
    {h : Nat} {l : List Nat} (hc : BChain b data h l) : ∀ j ∈ l, j < b := by
  induction hc with
  | oob h hb => intro j hj; simp at hj
  | term h hb hcell => intro j hj; simp at hj; omega
  | link h n l hb hcell hch hnot ih =>
    intro j hj
    rcases List.mem_cons.mp hj with rfl | hj'
    · exact hb
    · exact ih j hj'

/-- Storages of equal length whose cells agree on liveness have the same
live count. -/
theorem countInner_eq_of_status {T : Type} :
    ∀ (d1 d2 : List (OptionIndex T)), d1.length = d2.length →
      (∀ (j : Nat) (c1 c2 : OptionIndex T), d1[j]? = some c1 →
        d2[j]? = some c2 → c1.isInner = c2.isInner) →
      countInner d1 = countInner d2 := by
  intro d1
  induction d1 with
  | nil =>
    intro d2 hlen _
    cases d2 with
    | nil => rfl
    | cons c r => simp at hlen
  | cons c1 r1 ih =>
    intro d2 hlen hstat
    cases d2 with
    | nil => simp at hlen
    | cons c2 r2 =>
      have hhead : c1.isInner = c2.isInner := hstat 0 c1 c2 (by simp) (by simp)
      have htail : countInner r1 = countInner r2 := by
        refine ih r2 (by simpa using hlen) ?_
        intro j a1 a2 h1 h2
        exact hstat (j + 1) a1 a2 (by simpa using h1) (by simpa using h2)
      simp only [countInner, List.countP_cons] at *
      rw [htail, hhead]

/-- Truncation does not change the live count when every dropped cell is
free. -/
theorem countInner_take_all_free {T : Type} {X : List (OptionIndex T)}
    {n : Nat}
    (hfree : ∀ j c, n ≤ j → X[j]? = some c → c.isInner = false) :
    countInner (X.take n) = countInner X := by
  have hsplit : countInner (X.take n) + countInner (X.drop n)
      = countInner X := by
    conv_rhs => rw [← List.take_append_drop n X]
    simp only [countInner, List.countP_append]
  have hdrop : countInner (X.drop n) = 0 := by
    rw [countInner, List.countP_eq_zero]
    intro a ha
    obtain ⟨i, hi⟩ := List.mem_iff_getElem?.mp ha
    rw [List.getElem?_drop] at hi
    simp [hfree (n + i) a (by omega) hi]
  omega

/-- A bounded chain transfers verbatim to the truncated storage. -/
theorem BChain.restrict {T : Type} {b : Nat} {X : List (OptionIndex T)}
    {x : Nat} {q : List Nat} (hc : BChain b X x q) (hble : b ≤ X.length) :
    BChain (X.take b).length (X.take b) x q := by
  have hlen : (X.take b).length = b := by
    rw [List.length_take]
    omega
  rw [hlen]
  exact hc.congr fun j hj => List.getElem?_take_of_lt (hc.cells_lt j hj)

/-- `shrink_to_fit` when the final storage cell is live: no state change. -/
theorem shrink_spec_occupied_last {T : Type} (d : List (OptionIndex T))
    (h0 ml : Nat) {cLast : OptionIndex T} (hgl : d.getLast? = some cLast)
    (hin : cLast.isInner = true) :
    IndexMap.shrinkToFit ⟨d, some h0, ml⟩ = some ⟨d, some h0, ml⟩ := by
  simp only [IndexMap.shrinkToFit, hgl, hin, if_true]

/-- `shrink_to_fit` on an empty-but-fragmented map: full reset. -/
theorem shrink_spec_empty {T : Type} (d : List (OptionIndex T))
    (h0 : Nat) {cLast : OptionIndex T} (hgl : d.getLast? = some cLast)
    (hin : cLast.isInner = false) :
    IndexMap.shrinkToFit ⟨d, some h0, 0⟩ = some ⟨[], none, 0⟩ := by
  simp [IndexMap.shrinkToFit, hgl, hin]

/-- `shrink_to_fit` on the main path: walk, repoint, terminate, truncate. -/
theorem shrink_spec_main {T : Type} (d : List (OptionIndex T))
    (h0 ml : Nat) {cLast : OptionIndex T} {last : Nat}
    {data' : List (OptionIndex T)} {e : Nat} {hdw : Option Nat} {shdw : Bool}
    (hgl : d.getLast? = some cLast) (hin : cLast.isInner = false)
    (hml : ml ≠ 0) (hli : lastInner? d = some last)
    (hwk : walkFree last d h0 (some h0) (decide (last < h0)) (d.length + 1)
      = some (data', e, hdw, shdw)) :
    IndexMap.shrinkToFit ⟨d, some h0, ml⟩
      = some ⟨(data'.set e .NoIndex).take (last + 1),
          if shdw then (if e < last then some e else none) else hdw, ml⟩ := by
  simp [IndexMap.shrinkToFit, hgl, hin, hml, hli, hwk]

/-- A completed `shrink_to_fit` preserves well-formedness: this is the part
of the shrink claim that survives the splice defect — the live cells and the
count are intact, and the head still roots a well-formed (possibly dangling)
chain. -/
theorem wf_shrink {T : Type} {m m' : IndexMap T} (hm : WF m)
    (h : m.shrinkToFit = some m') : WF m' := by
  obtain ⟨d, mh, ml⟩ := m
  obtain ⟨hcount, hchain⟩ := hm
  simp only [] at hcount hchain
  cases mh with
  | none =>
    simp only [IndexMap.shrinkToFit] at h
    cases Option.some.inj h
    exact ⟨hcount, by intro hh hhh; simp at hhh⟩
  | some h0 =>
    cases hgl : d.getLast? with
    | none =>
      simp only [IndexMap.shrinkToFit, hgl] at h
      exact absurd h (by simp)
    | some cLast =>
      by_cases hin : cLast.isInner = true
      · rw [shrink_spec_occupied_last d h0 ml hgl hin] at h
        cases Option.some.inj h
        exact ⟨hcount, hchain⟩
      · rw [Bool.not_eq_true] at hin
        by_cases hml : ml = 0
        · subst hml
          rw [shrink_spec_empty d h0 hgl hin] at h
          cases Option.some.inj h
          refine ⟨rfl, ?_⟩
          intro hh hhh
          simp at hhh
        · cases hli : lastInner? d with
          | none =>
            -- impossible: the map is nonempty, so a live cell exists;
            -- but the model aborts here anyway, contradicting `h`
            simp only [IndexMap.shrinkToFit, hgl, hin, hli] at h
            simp [hml] at h
          | some last =>
            obtain ⟨hlastlt, ⟨vlast, hvlast⟩, hmax⟩ := lastInner?_spec hli
            cases hwk : walkFree last d h0 (some h0) (decide (last < h0))
                (d.length + 1) with
            | none =>
              simp only [IndexMap.shrinkToFit, hgl, hin, hli, hwk] at h
              simp [hml] at h
            | some res =>
              obtain ⟨data', e, hdw, shdw⟩ := res
              rw [shrink_spec_main d h0 ml hgl hin hml hli hwk] at h
              obtain ⟨l, hl⟩ := hchain h0 rfl
              obtain ⟨ih1, ih2, ih3, ih4, ih5, ih6, ih7, ih8⟩ :=
                walkFree_spec l d h0 (some h0) (decide (last < h0))
                  (d.length + 1) data' e hdw shdw hl hvlast hwk
              have hlne : l ≠ [] := by
                intro hEq
                rw [hEq] at ih4
                simp at ih4
              have hh0mem : h0 ∈ l := by
                rcases hl.shape with rfl | ⟨l', rfl⟩
                · exact absurd rfl hlne
                · simp
              have helt : e < data'.length := (List.getElem?_eq_some.mp ih5).1
              -- the final terminator write changes nothing
              have hX : ∀ (j : Nat),
                  (data'.set e (.NoIndex : OptionIndex T))[j]? = data'[j]? := by
                intro j
                by_cases hje : e = j
                · subst hje
                  rw [List.getElem?_set_self helt, ih5]
                · rw [List.getElem?_set_ne hje]
              -- liveness statuses survive the walk
              have hstat : ∀ (j : Nat) (c1 c2 : OptionIndex T),
                  d[j]? = some c1 → data'[j]? = some c2 →
                  c1.isInner = c2.isInner := by
                intro j c1 c2 h1 h2
                by_cases hjl : j ∈ l
                · obtain ⟨c1', hc1', hf1⟩ := hl.cells_free j hjl
                  obtain ⟨c2', hc2', hf2⟩ := ih3 j hjl
                  rw [h1] at hc1'
                  rw [h2] at hc2'
                  cases Option.some.inj hc1'
                  cases Option.some.inj hc2'
                  rw [hf1, hf2]
                · rw [ih2 j hjl, h1] at h2
                  cases Option.some.inj h2
                  rfl
              have hcnt' : countInner data' = countInner d :=
                (countInner_eq_of_status d data' ih1.symm hstat).symm
              have hcntX : countInner (data'.set e .NoIndex)
                  = countInner data' := by
                have := countInner_set data' e .NoIndex .NoIndex ih5
                omega
              have hfreeTail : ∀ j c, last + 1 ≤ j →
                  (data'.set e .NoIndex)[j]? = some c → c.isInner = false := by
                intro j c hj hc
                rw [hX j] at hc
                by_cases hjl : j ∈ l
                · obtain ⟨c2', hc2', hf2⟩ := ih3 j hjl
                  rw [hc] at hc2'
                  cases Option.some.inj hc2'
                  exact hf2
                · rw [ih2 j hjl] at hc
                  exact hmax j c (by omega) hc
              have hcntF : countInner ((data'.set e .NoIndex).take (last + 1))
                  = countInner d := by
                rw [countInner_take_all_free hfreeTail, hcntX, hcnt']
              -- assemble the final container
              cases Option.some.inj h
              refine ⟨by simpa using hcount.trans hcntF.symm, ?_⟩
              intro hh hhh
              simp only [] at hhh
              -- whatever the final head is, it is a kept chain cell
              have hkept : ∀ x, x ∈ l → x < last →
                  ∃ q, BChain ((data'.set e .NoIndex).take (last + 1)).length
                    ((data'.set e .NoIndex).take (last + 1)) x q := by
                intro x hx hxl
                obtain ⟨q, hq, _⟩ := ih6 x hx hxl
                have hq2 : BChain (last + 1) (data'.set e .NoIndex) x q :=
                  hq.congr fun j _ => hX j
                refine ⟨q, hq2.restrict ?_⟩
                rw [List.length_set]
                omega
              by_cases hlh : last < h0
              · have h8 := ih8 (by simp [hlh])
                cases hfd : (l.dropLast.filter fun t => decide (t < last)).head? with
                | some t =>
                  rw [hfd] at h8
                  obtain ⟨rfl, rfl⟩ := h8
                  simp only [if_neg (by simp : ¬(false = true))] at hhh
                  have hte : t = hh := Option.some.inj hhh
                  obtain ⟨ys, hys⟩ := List.head?_eq_some_iff.mp hfd
                  have htmem : t ∈ l.dropLast.filter
                      fun t => decide (t < last) := by
                    rw [hys]; simp
                  have htf := List.mem_filter.mp htmem
                  rw [← hte]
                  exact hkept t
                    (List.Sublist.mem htf.1 (List.dropLast_sublist l))
                    (by simpa using htf.2)
                | none =>
                  rw [hfd] at h8
                  obtain ⟨rfl, rfl⟩ := h8
                  simp only [if_pos rfl] at hhh
                  by_cases hel : e < last
                  · rw [if_pos hel] at hhh
                    have hee : e = hh := Option.some.inj hhh
                    rw [← hee]
                    exact hkept e ih4 hel
                  · rw [if_neg hel] at hhh
                    simp at hhh
              · have h7 := ih7 (by simp [hlh])
                obtain ⟨rfl, rfl⟩ := h7
                simp only [if_neg (by simp : ¬(false = true))] at hhh
                have h0e : h0 = hh := Option.some.inj hhh
                rw [← h0e]
                have hne : h0 ≠ last := by
                  intro hEq
                  obtain ⟨c, hcv, hfreec⟩ := hl.cells_free h0 hh0mem
                  rw [hEq, hvlast] at hcv
                  cases Option.some.inj hcv
                  simp [OptionIndex.isInner] at hfreec
                exact hkept h0 hh0mem (by omega)

/-! ## Reachability and count consistency (C6) -/

/-- Every completed run of public operations preserves well-formedness. -/
theorem runOps_wf {T : Type} :
    ∀ (ops : List (Op T)) (m m' : IndexMap T),
      WF m → runOps ops m = some m' → WF m' := by
  intro ops
  induction ops with
  | nil =>
    intro m m' hm h
    cases Option.some.inj h
    exact hm
  | cons op ops ih =>
    intro m m' hm h
    unfold runOps at h
    cases hstep : op.step m with
    | none => rw [hstep] at h; exact absurd h (by simp)
    | some m1 =>
      rw [hstep] at h
      refine ih m1 m' ?_ h
      cases op with
      | ins v =>
        simp only [Op.step] at hstep
        cases hins : m.insert v with
        | none => rw [hins] at hstep; exact absurd hstep (by simp)
        | some km =>
          rw [hins] at hstep
          simp only [Option.map] at hstep
          cases Option.some.inj hstep
          exact wf_insert hm (by rw [hins])
      | rem k =>
        simp only [Op.step] at hstep
        cases Option.some.inj hstep
        exact wf_remove hm k
      | clear =>
        simp only [Op.step] at hstep
        cases Option.some.inj hstep
        exact wf_clear m
      | drain =>
        simp only [Op.step] at hstep
        cases Option.some.inj hstep
        exact wf_drain m
      | shrink =>
        simp only [Op.step] at hstep
        exact wf_shrink hm hstep
      | retain p =>
        simp only [Op.step] at hstep
        cases Option.some.inj hstep
        exact wf_retain hm p
      | modify k v =>
        simp only [Op.step] at hstep
        cases Option.some.inj hstep
        exact wf_modify hm k v

/-- Reachable states are well-formed. -/
theorem reachable_wf {T : Type} {m : IndexMap T} (h : Reachable m) : WF m := by
  obtain ⟨ops, hops⟩ := h
  exact runOps_wf ops (IndexMap.new T) m wf_new hops

/-- The live-cell count is the number of in-range keys whose cell is live. -/
theorem countInner_eq_range_filter {T : Type} :
    ∀ (data : List (OptionIndex T)),
      countInner data
        = ((List.range data.length).filter fun k =>
            match data[k]? with
            | some c => c.isInner
            | none => false).length := by
  intro data
  induction data using List.reverseRecOn with
  | nil => rfl
  | append_singleton rest c ih =>
    have hlen : (rest ++ [c]).length = rest.length + 1 := by simp
    rw [hlen, List.range_succ, List.filter_append, List.length_append]
    have hlast : ((List.filter (fun k =>
        match (rest ++ [c])[k]? with
        | some c => c.isInner
        | none => false) [rest.length])).length
        = (if c.isInner then 1 else 0) := by
      have hcell : (rest ++ [c])[rest.length]? = some c := by
        rw [List.getElem?_append_right (Nat.le_refl _)]
        simp
      rw [List.filter_cons]
      simp only [hcell]
      cases hci : c.isInner with
      | true => simp
      | false => simp
    have hfront : List.filter (fun k =>
        match (rest ++ [c])[k]? with
        | some c => c.isInner
        | none => false) (List.range rest.length)
        = List.filter (fun k =>
            match rest[k]? with
            | some c => c.isInner
            | none => false) (List.range rest.length) := by
      refine List.filter_congr ?_
      intro k hk
      rw [List.getElem?_append_left (List.mem_range.mp hk)]
    rw [hlast, hfront, ← ih]
    simp only [countInner, List.countP_append, List.countP_cons,
      List.countP_nil]
    cases hci : c.isInner <;> simp [hci]

/-- C6.  In every state reachable by completed public operations, `len()`
equals the number of keys for which `contains_key` answers true (keys at or
beyond the storage length always answer false), and `is_empty()` answers
true exactly when `len()` is zero. -/
theorem claim_C6_len_counts_live_keys {T : Type} (m : IndexMap T)
    (h : Reachable m) :
    m.len = ((List.range m.data.length).filter fun k => m.containsKey k).length
      ∧ (m.isEmpty = true ↔ m.len = 0) := by
  obtain ⟨hcount, _⟩ := reachable_wf h
  constructor
  · rw [hcount, countInner_eq_range_filter m.data]
    rfl
  · simp [IndexMap.isEmpty]

/-- Witness for C6 at a concrete reachable state (two inserts, a remove, a
retain and a shrink). -/
theorem claim_C6_witness :
    (⟨[.NoIndex, .Some 5], some 0, 1⟩ : IndexMap Nat).len
        = ((List.range
              (⟨[.NoIndex, .Some 5], some 0, 1⟩ : IndexMap Nat).data.length).filter
            fun k =>
              (⟨[.NoIndex, .Some 5], some 0, 1⟩ : IndexMap Nat).containsKey k).length
      ∧ ((⟨[.NoIndex, .Some 5], some 0, 1⟩ : IndexMap Nat).isEmpty = true
          ↔ (⟨[.NoIndex, .Some 5], some 0, 1⟩ : IndexMap Nat).len = 0) :=
  claim_C6_len_counts_live_keys ⟨[.NoIndex, .Some 5], some 0, 1⟩
    ⟨[Op.ins 9, Op.ins 5, Op.rem 0, Op.shrink, Op.retain fun _ v => v == 5,
        Op.shrink], by decide⟩

/-! ## Iterator exactness (C8) -/

/-- The yield list of an enumerated storage has exactly the live count. -/
theorem iterYields_length_countInner {T : Type} :
    ∀ (data : List (OptionIndex T)) (n : Nat),
      (iterYields (enumFromIdx n data)).length = countInner data := by
  intro data
  induction data with
  | nil => intro n; rfl
  | cons c rest ih =>
    intro n
    cases c with
    | Some v =>
      rw [enumFromIdx_cons, iterYields_cons_some]
      simp only [List.length_cons, ih (n + 1), countInner, List.countP_cons,
        OptionIndex.isInner]
      rfl
    | Index i =>
      rw [enumFromIdx_cons, iterYields_cons_index]
      simp only [ih (n + 1), countInner, List.countP_cons, OptionIndex.isInner]
      rfl
    | NoIndex =>
      rw [enumFromIdx_cons, iterYields_cons_noindex]
      simp only [ih (n + 1), countInner, List.countP_cons, OptionIndex.isInner]
      rfl

/-- The shared `next` loop keeps the cached count exact. -/
theorem iterNextAux_exact {T : Type} :
    ∀ (inner : List (Nat × OptionIndex T)) (len : Nat),
      len = (iterYields inner).length →
      match iterNextAux inner len with
      | none => iterYields inner = []
      | some (kv, it') => iterYields inner = kv :: iterYields it'.inner ∧
          it'.len = (iterYields it'.inner).length := by
  intro inner
  induction inner with
  | nil => intro len _; rfl
  | cons p rest ih =>
    intro len hlen
    obtain ⟨i, c⟩ := p
    cases c with
    | Some v =>
      rw [iterYields_cons_some] at hlen
      simp only [iterNextAux, iterYields_cons_some]
      exact ⟨by trivial, by simp [hlen]⟩
    | Index j =>
      rw [iterYields_cons_index] at hlen
      simp only [iterNextAux, iterYields_cons_index]
      exact ih len hlen
    | NoIndex =>
      rw [iterYields_cons_noindex] at hlen
      simp only [iterNextAux, iterYields_cons_noindex]
      exact ih len hlen

/-- C8.  Exact-size reporting of the iterator family: on any reachable map a
fresh iterator (`iter`/`iter_mut`/`into_iter` via `iterOf`; `drain` builds
the very same state; `keys`/`values`/`values_mut` read the same `len` field)
reports exactly the number of elements it will yield, and one `next` step
keeps the report exact, so after consuming any number of elements the
remaining count is still exact; `size_hint` is the tight pair. -/
theorem claim_C8_iterator_exact_size {T : Type} :
    (∀ m : IndexMap T, Reachable m →
      (IndexMap.iterOf m).len = (iterYields (IndexMap.iterOf m).inner).length ∧
      (IndexMap.drainOf m).1 = IndexMap.iterOf m) ∧
    (∀ it : IterModel T, it.len = (iterYields it.inner).length →
      it.sizeHint = ((iterYields it.inner).length, (iterYields it.inner).length) ∧
      match it.next with
      | none => iterYields it.inner = []
      | some (kv, it') => iterYields it.inner = kv :: iterYields it'.inner ∧
          it'.len = (iterYields it'.inner).length) := by
  constructor
  · intro m hm
    obtain ⟨hcount, _⟩ := reachable_wf hm
    constructor
    · show m.len = (iterYields (enumFromIdx 0 m.data)).length
      rw [iterYields_length_countInner m.data 0, hcount]
    · rfl
  · intro it hinv
    refine ⟨?_, iterNextAux_exact it.inner it.len hinv⟩
    show (it.len, it.len) = _
    rw [hinv]

/-- Witness for C8: a concrete reachable two-cell map with one live entry,
and one consumption step on its fresh iterator. -/
theorem claim_C8_witness :
    ((IndexMap.iterOf (⟨[.NoIndex, .Some 5], some 0, 1⟩ : IndexMap Nat)).len
        = (iterYields (IndexMap.iterOf
            (⟨[.NoIndex, .Some 5], some 0, 1⟩ : IndexMap Nat)).inner).length ∧
      (IndexMap.drainOf (⟨[.NoIndex, .Some 5], some 0, 1⟩ : IndexMap Nat)).1
        = IndexMap.iterOf (⟨[.NoIndex, .Some 5], some 0, 1⟩ : IndexMap Nat)) ∧
    ((⟨[(0, .NoIndex), (1, .Some 5)], 1⟩ : IterModel Nat).sizeHint
        = ((iterYields (⟨[(0, .NoIndex), (1, .Some 5)], 1⟩ : IterModel Nat).inner).length,
            (iterYields (⟨[(0, .NoIndex), (1, .Some 5)], 1⟩ : IterModel Nat).inner).length) ∧
      match (⟨[(0, .NoIndex), (1, .Some 5)], 1⟩ : IterModel Nat).next with
      | none => iterYields (⟨[(0, .NoIndex), (1, .Some 5)], 1⟩ : IterModel Nat).inner = []
      | some (kv, it') =>
          iterYields (⟨[(0, .NoIndex), (1, .Some 5)], 1⟩ : IterModel Nat).inner
            = kv :: iterYields it'.inner ∧
          it'.len = (iterYields it'.inner).length) :=
  ⟨claim_C8_iterator_exact_size.1 ⟨[.NoIndex, .Some 5], some 0, 1⟩
      ⟨[Op.ins 9, Op.ins 5, Op.rem 0], by decide⟩,
    claim_C8_iterator_exact_size.2 ⟨[(0, .NoIndex), (1, .Some 5)], 1⟩ (by decide)⟩

/-! ## Key stability under inserts and removes (C4) -/

/-- A closed chain survives a storage update that keeps the length and agrees
on its cells. -/
theorem CChain.stable {T : Type} {d1 d2 : List (OptionIndex T)}
    {h : Nat} {l : List Nat} (hc : CChain d1 h l)
    (hlen : d2.length = d1.length) (hagree : ∀ j ∈ l, d2[j]? = d1[j]?) :
    CChain d2 h l := by
  induction hc with
  | term h hb hcell =>
    exact .term h (by omega) ((hagree h (by simp)) ▸ hcell)
  | link h n l hb hcell hch hnot ih =>
    refine .link h n l (by omega) ((hagree h (by simp)) ▸ hcell) ?_ hnot
    exact ih fun j hj => hagree j (by simp [hj])

/-- Cells of a closed chain are free. -/
theorem CChain.freeCells {T : Type} {data : List (OptionIndex T)}
    {h : Nat} {l : List Nat} (hc : CChain data h l) :
    ∀ j ∈ l, ∃ c, data[j]? = some c ∧ c.isInner = false := by
  induction hc with
  | term h hb hcell =>
    intro j hj
    simp at hj
    exact ⟨.NoIndex, hj ▸ hcell, rfl⟩
  | link h n l hb hcell hch hnot ih =>
    intro j hj
    rcases List.mem_cons.mp hj with rfl | hj'
    · exact ⟨.Index n, hcell, rfl⟩
    · exact ih j hj'

/-- The root of a closed chain is on it. -/
theorem CChain.root_mem {T : Type} {data : List (OptionIndex T)}
    {h : Nat} {l : List Nat} (hc : CChain data h l) : h ∈ l := by
  cases hc with
  | term h hb hcell => simp
  | link h n l hb hcell hch hnot => simp

/-- An occupied cell is never on a closed chain. -/
theorem CChain.inner_not_mem {T : Type} {data : List (OptionIndex T)}
    {h i : Nat} {l : List Nat} {v : T} (hc : CChain data h l)
    (hcell : data[i]? = some (.Some v)) : i ∉ l := by
  intro hmem
  obtain ⟨c, hcv, hfree⟩ := hc.freeCells i hmem
  rw [hcell] at hcv
  cases Option.some.inj hcv
  simp [OptionIndex.isInner] at hfree

/-- Under the strong invariant `insert` always completes. -/
theorem insert_total_swf {T : Type} {m : IndexMap T} (hm : SWF m) (v : T) :
    ∃ (k : Nat) (m' : IndexMap T), m.insert v = some (k, m') := by
  obtain ⟨d, mh, ml⟩ := m
  obtain ⟨_, hchain⟩ := hm
  cases mh with
  | none => exact ⟨d.length, _, insert_spec_none d ml v⟩
  | some hd =>
    obtain ⟨l, hl⟩ := hchain hd rfl
    have hlt : hd < d.length := by
      cases hl with
      | term _ hb _ => exact hb
      | link _ n l' hb _ _ _ => exact hb
    cases hc : d[hd]? with
    | none =>
      rw [List.getElem?_eq_none_iff] at hc
      omega
    | some c => exact ⟨hd, _, insert_spec_some d hd ml v hc⟩

/-- A completed `insert` preserves the strong invariant. -/
theorem swf_insert {T : Type} {m : IndexMap T} {v : T} {k : Nat}
    {m' : IndexMap T} (hm : SWF m) (h : m.insert v = some (k, m')) :
    SWF m' := by
  obtain ⟨d, mh, ml⟩ := m
  obtain ⟨hcount, hchain⟩ := hm
  simp only [] at hcount hchain
  cases mh with
  | none =>
    rw [insert_spec_none d ml v] at h
    obtain ⟨rfl, rfl⟩ : d.length = k ∧
        (⟨d ++ [.Some v], none, ml + 1⟩ : IndexMap T) = m' := by
      have := Option.some.inj h
      exact ⟨congrArg Prod.fst this, congrArg Prod.snd this⟩
    refine ⟨?_, ?_⟩
    · show ml + 1 = countInner (d ++ [.Some v])
      simp [countInner, List.countP_append, hcount, OptionIndex.isInner]
    · intro h hh; simp at hh
  | some hd =>
    cases hc : d[hd]? with
    | none => rw [insert_spec_oob d hd ml v hc] at h; exact absurd h (by simp)
    | some c =>
      rw [insert_spec_some d hd ml v hc] at h
      obtain ⟨rfl, rfl⟩ : hd = k ∧
          (⟨d.set hd (.Some v), c.intoIndex, ml + 1⟩ : IndexMap T) = m' := by
        have := Option.some.inj h
        exact ⟨congrArg Prod.fst this, congrArg Prod.snd this⟩
      obtain ⟨l, hl⟩ := hchain hd rfl
      have hlen : hd < d.length := (List.getElem?_eq_some.mp hc).1
      constructor
      · show ml + 1 = countInner (d.set hd (.Some v))
        obtain ⟨c', hc', hfree⟩ := hl.freeCells hd hl.root_mem
        rw [hc] at hc'
        cases Option.some.inj hc'
        have := countInner_set d hd c (.Some v) hc
        rw [hfree] at this
        simp [OptionIndex.isInner] at this
        omega
      · intro nh hnh
        show ∃ l, CChain (d.set hd (.Some v)) nh l
        cases hl with
        | term _ hb hcell =>
          rw [hc] at hcell
          cases Option.some.inj hcell
          simp [OptionIndex.intoIndex] at hnh
        | link _ n l' hb hcell hch hnot =>
          rw [hc] at hcell
          cases Option.some.inj hcell
          simp only [OptionIndex.intoIndex] at hnh
          cases Option.some.inj hnh
          refine ⟨l', hch.stable (by rw [List.length_set]) ?_⟩
          intro j hj
          exact List.getElem?_set_ne (fun he => hnot (by rw [he]; exact hj))

/-- `remove` preserves the strong invariant. -/
theorem swf_remove {T : Type} {m : IndexMap T} (hm : SWF m) (i : Nat) :
    SWF (m.remove i).2 := by
  obtain ⟨d, mh, ml⟩ := m
  obtain ⟨hcount, hchain⟩ := hm
  simp only [] at hcount hchain
  cases hc : d[i]? with
  | none =>
    unfold IndexMap.remove
    rw [show (⟨d, mh, ml⟩ : IndexMap T).data = d from rfl, hc]
    exact ⟨hcount, hchain⟩
  | some c =>
    cases c with
    | Index j =>
      unfold IndexMap.remove
      rw [show (⟨d, mh, ml⟩ : IndexMap T).data = d from rfl, hc]
      exact ⟨hcount, hchain⟩
    | NoIndex =>
      unfold IndexMap.remove
      rw [show (⟨d, mh, ml⟩ : IndexMap T).data = d from rfl, hc]
      exact ⟨hcount, hchain⟩
    | Some v =>
      have hlen : i < d.length := (List.getElem?_eq_some.mp hc).1
      have hpos : 0 < countInner d := countInner_pos_of_inner d i v hc
      cases mh with
      | none =>
        rw [remove_spec_inner_none d i ml hc]
        refine ⟨?_, ?_⟩
        · show ml - 1 = countInner (d.set i .NoIndex)
          have := countInner_set d i (.Some v) (.NoIndex) hc
          simp [OptionIndex.isInner] at this
          omega
        · intro nh hnh
          cases Option.some.inj hnh
          refine ⟨[i], .term i (by rw [List.length_set]; exact hlen) ?_⟩
          rw [List.getElem?_set_self hlen]
      | some hd =>
        rw [remove_spec_inner_some d i ml hd hc]
        refine ⟨?_, ?_⟩
        · show ml - 1 = countInner (d.set i (.Index hd))
          have := countInner_set d i (.Some v) (.Index hd) hc
          simp [OptionIndex.isInner] at this
          omega
        · intro nh hnh
          cases Option.some.inj hnh
          obtain ⟨l, hl⟩ := hchain hd rfl
          have hnmem : i ∉ l := hl.inner_not_mem hc
          refine ⟨i :: l, ?_⟩
          refine .link i hd l (by rw [List.length_set]; exact hlen) ?_ ?_ hnmem
          · rw [List.getElem?_set_self hlen]
          · refine hl.stable (by rw [List.length_set]) ?_
            intro j hj
            exact List.getElem?_set_ne (fun he => hnmem (by rw [he]; exact hj))

/-- The key `insert` hands back maps to the inserted value. -/
theorem get_insert_key {T : Type} {m : IndexMap T} {v : T} {k : Nat}
    {m' : IndexMap T} (h : m.insert v = some (k, m')) :
    m'.get k = some v := by
  obtain ⟨d, mh, ml⟩ := m
  cases mh with
  | none =>
    rw [insert_spec_none d ml v] at h
    obtain ⟨rfl, rfl⟩ : d.length = k ∧
        (⟨d ++ [.Some v], none, ml + 1⟩ : IndexMap T) = m' := by
      have := Option.some.inj h
      exact ⟨congrArg Prod.fst this, congrArg Prod.snd this⟩
    show IndexMap.get ⟨d ++ [.Some v], none, ml + 1⟩ d.length = some v
    unfold IndexMap.get
    rw [show (⟨d ++ [.Some v], none, ml + 1⟩ : IndexMap T).data
      = d ++ [.Some v] from rfl]
    rw [List.getElem?_append_right (Nat.le_refl _)]
    simp [OptionIndex.intoInner]
  | some hd =>
    cases hc : d[hd]? with
    | none => rw [insert_spec_oob d hd ml v hc] at h; exact absurd h (by simp)
    | some c =>
      rw [insert_spec_some d hd ml v hc] at h
      obtain ⟨rfl, rfl⟩ : hd = k ∧
          (⟨d.set hd (.Some v), c.intoIndex, ml + 1⟩ : IndexMap T) = m' := by
        have := Option.some.inj h
        exact ⟨congrArg Prod.fst this, congrArg Prod.snd this⟩
      have hlen : hd < d.length := (List.getElem?_eq_some.mp hc).1
      unfold IndexMap.get
      rw [show (⟨d.set hd (.Some v), c.intoIndex, ml + 1⟩ : IndexMap T).data
        = d.set hd (.Some v) from rfl]
      rw [List.getElem?_set_self hlen]
      rfl

/-- `insert` does not disturb any live key. -/
theorem get_insert_frame {T : Type} {m : IndexMap T} {v : T} {k : Nat}
    {m' : IndexMap T} (hm : SWF m) (h : m.insert v = some (k, m'))
    (j : Nat) (w : T) (hj : m.get j = some w) : m'.get j = some w := by
  rw [get_eq_some_iff] at hj
  have hjlen : j < m.data.length := (List.getElem?_eq_some.mp hj).1
  obtain ⟨d, mh, ml⟩ := m
  obtain ⟨_, hchain⟩ := hm
  simp only [] at hchain hj hjlen
  cases mh with
  | none =>
    rw [insert_spec_none d ml v] at h
    obtain ⟨rfl, rfl⟩ : d.length = k ∧
        (⟨d ++ [.Some v], none, ml + 1⟩ : IndexMap T) = m' := by
      have := Option.some.inj h
      exact ⟨congrArg Prod.fst this, congrArg Prod.snd this⟩
    rw [get_eq_some_iff]
    show (d ++ [.Some v])[j]? = some (.Some w)
    rw [List.getElem?_append_left hjlen]
    exact hj
  | some hd =>
    cases hc : d[hd]? with
    | none => rw [insert_spec_oob d hd ml v hc] at h; exact absurd h (by simp)
    | some c =>
      rw [insert_spec_some d hd ml v hc] at h
      obtain ⟨rfl, rfl⟩ : hd = k ∧
          (⟨d.set hd (.Some v), c.intoIndex, ml + 1⟩ : IndexMap T) = m' := by
        have := Option.some.inj h
        exact ⟨congrArg Prod.fst this, congrArg Prod.snd this⟩
      obtain ⟨l, hl⟩ := hchain hd rfl
      have hne : hd ≠ j := by
        intro hEq
        obtain ⟨c', hc', hfree⟩ := hl.freeCells hd hl.root_mem
        rw [hEq, hj] at hc'
        cases Option.some.inj hc'
        simp [OptionIndex.isInner] at hfree
      rw [get_eq_some_iff]
      show (d.set hd (.Some v))[j]? = some (.Some w)
      rw [List.getElem?_set_ne hne]
      exact hj

/-- `remove` of one key does not disturb any other key. -/
theorem get_remove_frame {T : Type} (m : IndexMap T) (i j : Nat)
    (hij : j ≠ i) : (m.remove i).2.get j = m.get j := by
  unfold IndexMap.remove
  cases hc : m.data[i]? with
  | none => rfl
  | some c =>
    cases c with
    | Index x => rfl
    | NoIndex => rfl
    | Some v =>
      simp only []
      unfold IndexMap.get
      rw [show (⟨m.data.set i _, some i, m.len - 1⟩ : IndexMap T).data
        = m.data.set i _ from rfl]
      rw [List.getElem?_set_ne (fun he => hij he.symm)]

/-- Completed insert/remove-only runs preserve the strong invariant. -/
theorem runOps_insrem_swf {T : Type} :
    ∀ (ops : List (Op T)) (m m' : IndexMap T),
      insRemOnly ops → SWF m → runOps ops m = some m' → SWF m' := by
  intro ops
  induction ops with
  | nil =>
    intro m m' _ hm h
    cases Option.some.inj h
    exact hm
  | cons op ops ih =>
    intro m m' hir hm h
    unfold runOps at h
    cases hstep : op.step m with
    | none => rw [hstep] at h; exact absurd h (by simp)
    | some m1 =>
      rw [hstep] at h
      refine ih m1 m' (fun o ho => hir o (by simp [ho])) ?_ h
      rcases hir op (by simp) with ⟨v, rfl⟩ | ⟨kk, rfl⟩
      · simp only [Op.step] at hstep
        cases hins : m.insert v with
        | none => rw [hins] at hstep; exact absurd hstep (by simp)
        | some km =>
          rw [hins] at hstep
          simp only [Option.map] at hstep
          cases Option.some.inj hstep
          exact swf_insert hm (by rw [hins])
      · simp only [Op.step] at hstep
        cases Option.some.inj hstep
        exact swf_remove hm kk

/-- Insert/remove-only runs that never remove `k` keep `k` mapped to its
value. -/
theorem runOps_insrem_stable {T : Type} :
    ∀ (ops : List (Op T)) (m : IndexMap T) (k : Nat) (v : T),
      insRemOnly ops → (∀ op ∈ ops, op ≠ Op.rem k) →
      SWF m → m.get k = some v →
      ∃ m', runOps ops m = some m' ∧ SWF m' ∧ m'.get k = some v := by
  intro ops
  induction ops with
  | nil =>
    intro m k v _ _ hm hget
    exact ⟨m, rfl, hm, hget⟩
  | cons op ops ih =>
    intro m k v hir hnr hm hget
    rcases hir op (by simp) with ⟨w, rfl⟩ | ⟨kk, rfl⟩
    · obtain ⟨k', m1, hins⟩ := insert_total_swf hm w
      have hstep : (Op.ins w).step m = some m1 := by
        simp only [Op.step, hins, Option.map]
      obtain ⟨m', hrun, hswf, hget'⟩ :=
        ih m1 k v (fun o ho => hir o (by simp [ho]))
          (fun o ho => hnr o (by simp [ho]))
          (swf_insert hm hins) (get_insert_frame hm hins k v hget)
      refine ⟨m', ?_, hswf, hget'⟩
      unfold runOps
      rw [hstep]
      exact hrun
    · have hkk : k ≠ kk := by
        intro hEq
        exact hnr (Op.rem kk) (by simp) (by rw [hEq])
      have hstep : (Op.rem kk).step m = some (m.remove kk).2 := rfl
      obtain ⟨m', hrun, hswf, hget'⟩ :=
        ih (m.remove kk).2 k v (fun o ho => hir o (by simp [ho]))
          (fun o ho => hnr o (by simp [ho]))
          (swf_remove hm kk)
          (by rw [get_remove_frame m kk k hkk]; exact hget)
      refine ⟨m', ?_, hswf, hget'⟩
      unfold runOps
      rw [hstep]
      exact hrun

/-- The empty map satisfies the strong invariant. -/
theorem swf_new {T : Type} : SWF (IndexMap.new T) := by
  refine ⟨rfl, ?_⟩
  intro h hh
  simp [IndexMap.new] at hh

/-- C4.  Key stability: starting from a fresh map, run any insert/remove
sequence, insert `v` receiving key `k`; then any further insert/remove
sequence that never calls `remove k` completes with `get k` still returning
`v` — immediately after the insert and after every later operation. -/
theorem claim_C4_key_stability {T : Type} (ops1 ops2 : List (Op T))
    (m mi : IndexMap T) (v : T) (k : Nat)
    (hir1 : insRemOnly ops1) (hrun : runOps ops1 (IndexMap.new T) = some m)
    (hins : m.insert v = some (k, mi))
    (hir2 : insRemOnly ops2) (hnorem : ∀ op ∈ ops2, op ≠ Op.rem k) :
    mi.get k = some v ∧
    ∃ m'', runOps ops2 mi = some m'' ∧ m''.get k = some v := by
  have hswf : SWF m := runOps_insrem_swf ops1 (IndexMap.new T) m hir1 swf_new hrun
  have hgk : mi.get k = some v := get_insert_key hins
  obtain ⟨m'', hrun2, _, hget2⟩ :=
    runOps_insrem_stable ops2 mi k v hir2 hnorem (swf_insert hswf hins) hgk
  exact ⟨hgk, m'', hrun2, hget2⟩

/-- Witness for C4: insert then a run of one insert and an unrelated remove. -/
theorem claim_C4_witness :
    (⟨[.Some 10, .Some 20], none, 2⟩ : IndexMap Nat).get 1 = some 20 ∧
    ∃ m'', runOps [Op.ins 30, Op.rem 0]
        (⟨[.Some 10, .Some 20], none, 2⟩ : IndexMap Nat) = some m''
      ∧ m''.get 1 = some 20 :=
  claim_C4_key_stability [Op.ins 10] [Op.ins 30, Op.rem 0]
    ⟨[.Some 10], none, 1⟩ ⟨[.Some 10, .Some 20], none, 2⟩ 20 1
    (by
      intro op hop
      simp at hop
      subst hop
      exact Or.inl ⟨10, rfl⟩)
    (by decide)
    (by decide)
    (by
      intro op hop
      simp at hop
      rcases hop with rfl | rfl
      · exact Or.inl ⟨30, rfl⟩
      · exact Or.inr ⟨0, rfl⟩)
    (by
      intro op hop
      simp at hop
      rcases hop with rfl | rfl
      · exact fun hcon => Op.noConfusion hcon
      · intro hcon
        cases hcon)
